import Mathlib

/-!
Verification of the filtering and aggregation pipeline of
src/dockerhub_filter.py, shallowly embedded in Lean 4.

Conventions of the embedding:
- Python strings are Lean String values; character comparison is by code point
  in both languages.
- The external regular-expression library is modelled by a small regex AST with
  Brzozowski-derivative matching: re.match (anchored at the start, allowed to
  match a proper prefix) is rmatch, re.fullmatch is fullmatch.  A configured
  pattern string is modelled by PatStr: it is either falsy (empty), compiles to
  a regex value, or fails to compile (re.error at compile time).
- Python dict assignment d[k] = v is updAssoc (replace in place, else append);
  dict iteration order is insertion order, as in CPython.
- Python exceptions are modelled with Except; a raised exception aborts the
  remaining work and carries the state reached so far, so that the trace of
  already-performed effects stays observable.
- Tag timestamps (the last_updated field) are modelled as naturals: the source
  only ever compares them with the order inherited from the registry encoding.
-/

namespace DockerhubFilter

/-! ### Three-way comparisons used by the embedding of Python ordering -/

def intCmp (a b : Int) : Ordering :=
  if a < b then .lt else if b < a then .gt else .eq

def chCmp (a b : Char) : Ordering :=
  if a < b then .lt else if b < a then .gt else .eq

/-- Lexicographic comparison of lists, elementwise by f; a strict prefix
compares below the longer list, as Python sequence comparison does. -/
def lexCmp (f : α → α → Ordering) : List α → List α → Ordering
  | [], [] => .eq
  | [], _ :: _ => .lt
  | _ :: _, [] => .gt
  | a :: as, b :: bs =>
    match f a b with
    | .eq => lexCmp f as bs
    | o => o

def strCmp (a b : String) : Ordering := lexCmp chCmp a.data b.data

/-! ### Natural sort key (natural_key in the source)

natural_key(s) = [int(text) if text.isdigit() else text.lower()
                  for text in re.split(r'(\d+)', s)]

re.split with a captured group of one-or-more digits returns the maximal
digit runs and the (possibly empty) text runs around them, alternating,
always starting and ending with a text run. -/

/-- One component of a natural sort key: a Python int or a Python str. -/
inductive NK where
  | num (n : Int)
  | str (s : String)
deriving DecidableEq, Repr

def strCons (c : Char) (s : String) : String := ⟨c :: s.data⟩

/-- The embedding of re.split applied with the pattern capturing maximal digit
runs: text run, digit run, text run, ..., text run (text runs may be empty). -/
def nsplit : List Char → List String
  | [] => [""]
  | c :: cs =>
    match nsplit cs with
    | [] => []
    | t :: tail =>
      if c.isDigit then
        if t = "" then
          match tail with
          | d :: r => "" :: strCons c d :: r
          | [] => "" :: strCons c "" :: t :: tail
        else "" :: strCons c "" :: t :: tail
      else strCons c t :: tail

/-- Python str.isdigit: nonempty and all characters digits. -/
def pyIsdigit (s : String) : Bool := !s.data.isEmpty && s.data.all Char.isDigit

/-- Python int() on a digit string. -/
def digitsToNat (s : String) : Nat :=
  s.data.foldl (fun a c => a * 10 + (c.toNat - 48)) 0

/-- Python str.lower, restricted to the ASCII case mapping the source relies
on. -/
def pyLower (s : String) : String := ⟨s.data.map Char.toLower⟩

def natural_key (s : String) : List NK :=
  (nsplit s.data).map fun t =>
    if pyIsdigit t then NK.num (Int.ofNat (digitsToNat t)) else NK.str (pyLower t)

/-- Comparison of key components as Python would compare them when both sides
have the same type; the mixed cases are fixed arbitrarily (Python would raise
there; the development proves they are never reached between natural keys). -/
def nkCmp : NK → NK → Ordering
  | .num a, .num b => intCmp a b
  | .str a, .str b => strCmp a b
  | .num _, .str _ => .lt
  | .str _, .num _ => .gt

/-! ### Regex model -/

inductive Regex where
  | emp
  | eps
  | chr (c : Char)
  | alt (a b : Regex)
  | cat (a b : Regex)
  | star (r : Regex)
deriving DecidableEq, Repr

def Regex.nullable : Regex → Bool
  | .emp => false
  | .eps => true
  | .chr _ => false
  | .alt a b => a.nullable || b.nullable
  | .cat a b => a.nullable && b.nullable
  | .star _ => true

def Regex.deriv : Regex → Char → Regex
  | .emp, _ => .emp
  | .eps, _ => .emp
  | .chr c, a => if c = a then .eps else .emp
  | .alt a b, c => .alt (a.deriv c) (b.deriv c)
  | .cat a b, c =>
    if a.nullable then .alt (.cat (a.deriv c) b) (b.deriv c)
    else .cat (a.deriv c) b
  | .star r, c => .cat (r.deriv c) (.star r)

/-- re.match semantics: the pattern matches at the start of the string, and is
allowed to consume only a prefix. -/
def rmatch (r : Regex) : List Char → Bool
  | [] => r.nullable
  | c :: cs => r.nullable || rmatch (r.deriv c) cs

/-- re.fullmatch semantics: the pattern must consume the whole string. -/
def fullmatch (r : Regex) (s : List Char) : Bool :=
  (s.foldl Regex.deriv r).nullable

/-- A configured pattern string, as seen through the external re library:
empty (falsy in Python), a string that compiles to a regex value, or a string
on which re.compile raises. -/
inductive PatStr where
  | empty
  | valid (r : Regex)
  | malformed
deriving DecidableEq, Repr

inductive PyErr where
  | regexError
deriving DecidableEq, Repr

/-- The embedding of re.compile; the empty pattern compiles to a regex
matching the empty prefix of anything. -/
def patCompile : PatStr → Except PyErr Regex
  | .empty => .ok .eps
  | .valid r => .ok r
  | .malformed => .error .regexError

/-! ### Data model: tags and rule dicts -/

structure Tag where
  name : String
  last_updated : Nat
deriving DecidableEq, Repr

/-- One YAML filter rule entry: a Python dict with these optional keys.
keep_most_recent records the truthiness of the value at that key. -/
structure RuleDict where
  repo_regex : Option PatStr := none
  tag_regex : Option PatStr := none
  blacklist : Option (List String) := none
  keep_latest_n : Option Int := none
  keep_most_recent : Bool := false
deriving DecidableEq, Repr

instance {ε α : Type} [DecidableEq ε] [DecidableEq α] : DecidableEq (Except ε α)
  | .error e, .error f =>
    if h : e = f then .isTrue (by rw [h]) else .isFalse (fun hc => h (by cases hc; rfl))
  | .error _, .ok _ => .isFalse (fun hc => nomatch hc)
  | .ok _, .error _ => .isFalse (fun hc => nomatch hc)
  | .ok x, .ok y =>
    if h : x = y then .isTrue (by rw [h]) else .isFalse (fun hc => h (by cases hc; rfl))

/-! ### filter_names (source lines 60-66) -/

def nameStep (filtered : List String) (rule : RuleDict) : Except PyErr (List String) :=
  match rule.repo_regex with
  | some p => do
    let regex ← patCompile p
    pure (filtered.filter fun n => rmatch regex n.data)
  | none => pure filtered

def filter_names (names : List String) (filters : List RuleDict) :
    Except PyErr (List String) :=
  filters.foldlM nameStep names

/-! ### filter_tags (source lines 74-98) -/

/-- The sort key built inside the keep_latest_n branch:
(0,) for the tag named latest, and otherwise (1, key) with every integer
component of the natural key negated.  The 0/1 discriminant is encoded by
Option: none sorts before some. -/
def negKey : List NK → List NK :=
  List.map fun k => match k with | .num x => .num (-x) | .str s => .str s

def tag_sort_key (t : Tag) : Option (List NK) :=
  if t.name = "latest" then none else some (negKey (natural_key t.name))

def keyCmpO : Option (List NK) → Option (List NK) → Ordering
  | none, none => .eq
  | none, some _ => .lt
  | some _, none => .gt
  | some a, some b => lexCmp nkCmp a b

def tagLe (t u : Tag) : Prop := keyCmpO (tag_sort_key t) (tag_sort_key u) ≠ .gt

instance : DecidableRel tagLe := fun t u =>
  decidable_of_iff (keyCmpO (tag_sort_key t) (tag_sort_key u) ≠ .gt) Iff.rfl

/-- Python list slicing l[:n] for an arbitrary integer n. -/
def pyTake (n : Int) (l : List α) : List α :=
  if 0 ≤ n then l.take n.toNat else l.take (l.length - (-n).toNat)

/-- Python max(l, key=lambda t: t.last_updated) on a nonempty list: a left
scan replacing the current maximum only on strict increase, so the first
maximal element wins ties. -/
def pyMaxLU (x : Tag) (xs : List Tag) : Tag :=
  xs.foldl (fun acc t => if acc.last_updated < t.last_updated then t else acc) x

/-- The body of the tag_regex branch of filter_tags: apply the regex (when
one was compiled), then the blacklist sub-clause, then the keep_latest_n
sort-and-truncate sub-clause. -/
def tagRegexApply (filtered : List Tag) (rule : RuleDict) (regex : Option Regex) :
    List Tag :=
  let f1 := match regex with
    | some r => filtered.filter fun t => rmatch r t.name.data
    | none => filtered
  let f2 := match rule.blacklist with
    | some bl => f1.filter fun t => !bl.contains t.name
    | none => f1
  match rule.keep_latest_n with
  | some n => pyTake n (List.insertionSort tagLe f2)
  | none => f2

def tagStep (filtered : List Tag) (rule : RuleDict) : Except PyErr (List Tag) :=
  match rule.tag_regex with
  | some p => do
    let regex ← (if p = .empty then pure none else do pure (some (← patCompile p)))
    pure (tagRegexApply filtered rule regex)
  | none =>
    if rule.keep_most_recent then
      match filtered with
      | [] => pure filtered
      | x :: xs => pure [pyMaxLU x xs]
    else pure filtered

def filter_tags (tags : List Tag) (filters : List RuleDict) :
    Except PyErr (List Tag) :=
  filters.foldlM tagStep tags

/-! ### Reduction equations for tagStep -/

theorem tagStep_none_kmr {filtered : List Tag} {rule : RuleDict}
    (h : rule.tag_regex = none) (hk : rule.keep_most_recent = true) :
    tagStep filtered rule =
      (match filtered with
        | [] => .ok filtered
        | x :: xs => .ok [pyMaxLU x xs]) := by
  unfold tagStep
  rw [h, hk]
  cases filtered <;> rfl

theorem tagStep_none_plain {filtered : List Tag} {rule : RuleDict}
    (h : rule.tag_regex = none) (hk : rule.keep_most_recent = false) :
    tagStep filtered rule = .ok filtered := by
  unfold tagStep
  rw [h, hk]
  rfl

theorem tagStep_some_empty {filtered : List Tag} {rule : RuleDict}
    (h : rule.tag_regex = some .empty) :
    tagStep filtered rule = .ok (tagRegexApply filtered rule none) := by
  unfold tagStep
  rw [h]
  rfl

theorem tagStep_some_ok {filtered : List Tag} {rule : RuleDict} {p : PatStr} {rx : Regex}
    (h : rule.tag_regex = some p) (hne : p ≠ .empty) (hc : patCompile p = .ok rx) :
    tagStep filtered rule = .ok (tagRegexApply filtered rule (some rx)) := by
  unfold tagStep
  rw [h]
  show ((if p = PatStr.empty then (pure none : Except PyErr (Option Regex))
      else patCompile p >>= fun r => pure (some r)) >>= fun regex =>
      pure (tagRegexApply filtered rule regex)) = _
  rw [if_neg hne, hc]
  rfl

theorem tagStep_some_err {filtered : List Tag} {rule : RuleDict} {p : PatStr} {e : PyErr}
    (h : rule.tag_regex = some p) (hc : patCompile p = .error e) :
    tagStep filtered rule = .error e := by
  have hne : p ≠ .empty := by
    intro hcon
    subst hcon
    exact nomatch hc
  unfold tagStep
  rw [h]
  show ((if p = PatStr.empty then (pure none : Except PyErr (Option Regex))
      else patCompile p >>= fun r => pure (some r)) >>= fun regex =>
      pure (tagRegexApply filtered rule regex)) = _
  rw [if_neg hne, hc]
  rfl

theorem filter_tags_nil (tags : List Tag) : filter_tags tags [] = .ok tags := rfl

theorem filter_tags_cons (tags : List Tag) (r : RuleDict) (rs : List RuleDict) :
    filter_tags tags (r :: rs) =
      (tagStep tags r).bind fun m => filter_tags m rs := by
  show (tagStep tags r >>= fun m => List.foldlM tagStep m rs) = _
  cases tagStep tags r <;> rfl

/-! ### The final per-repository tag ordering (source line 131):
sorted(tag_names, key=natural_key, reverse=True), i.e. the stable descending
sort by natural key. -/

def natDescLe (a b : String) : Prop :=
  lexCmp nkCmp (natural_key a) (natural_key b) ≠ .lt

instance : DecidableRel natDescLe := fun a b =>
  decidable_of_iff (lexCmp nkCmp (natural_key a) (natural_key b) ≠ .lt) Iff.rfl

def finalTagSort (names : List String) : List String :=
  List.insertionSort natDescLe names

/-! ### Laws of the three-way comparisons -/

/-- The laws a three-way comparison needs for sorting arguments: swapping the
arguments swaps the verdict, eq means equality, and lt is transitive. -/
structure CmpLaws (f : α → α → Ordering) : Prop where
  swap_eq : ∀ a b, (f a b).swap = f b a
  eq_iff : ∀ a b, f a b = .eq → a = b
  lt_trans : ∀ a b c, f a b = .lt → f b c = .lt → f a c = .lt

theorem CmpLaws.refl_eq {f : α → α → Ordering} (hf : CmpLaws f) (a : α) :
    f a a = .eq := by
  cases hfa : f a a
  · exfalso
    have h := hf.swap_eq a a
    rw [hfa] at h
    exact absurd h (by decide)
  · rfl
  · exfalso
    have h := hf.swap_eq a a
    rw [hfa] at h
    exact absurd h (by decide)

theorem CmpLaws.gt_iff {f : α → α → Ordering} (hf : CmpLaws f) (a b : α) :
    f a b = .gt ↔ f b a = .lt := by
  constructor
  · intro h
    have hs := hf.swap_eq a b
    rw [h] at hs
    exact hs.symm
  · intro h
    have hs := hf.swap_eq b a
    rw [h] at hs
    exact hs.symm

/-- Any comparison defined from a linear order by the two-test pattern the
source relies on satisfies the laws. -/
theorem ltCmp_laws {α} [LinearOrder α] (f : α → α → Ordering)
    (hlt : ∀ a b, a < b → f a b = .lt)
    (hgt : ∀ a b, b < a → f a b = .gt)
    (heq : ∀ a b, ¬ a < b → ¬ b < a → f a b = .eq) :
    CmpLaws f := by
  have hinvlt : ∀ a b, f a b = .lt → a < b := by
    intro a b h
    rcases lt_trichotomy a b with h1 | h1 | h1
    · exact h1
    · subst h1
      rw [heq a a (lt_irrefl a) (lt_irrefl a)] at h
      exact absurd h (by decide)
    · rw [hgt a b h1] at h
      exact absurd h (by decide)
  constructor
  · intro a b
    rcases lt_trichotomy a b with h | h | h
    · rw [hlt a b h, hgt b a h]; rfl
    · subst h
      rw [heq a a (lt_irrefl a) (lt_irrefl a)]; rfl
    · rw [hgt a b h, hlt b a h]; rfl
  · intro a b h
    rcases lt_trichotomy a b with h1 | h1 | h1
    · rw [hlt a b h1] at h
      exact absurd h (by decide)
    · exact h1
    · rw [hgt a b h1] at h
      exact absurd h (by decide)
  · intro a b c hab hbc
    exact hlt a c (lt_trans (hinvlt a b hab) (hinvlt b c hbc))

theorem intCmp_laws : CmpLaws intCmp := by
  refine ltCmp_laws intCmp ?_ ?_ ?_
  · intro a b h; simp [intCmp, h]
  · intro a b h; simp [intCmp, h, asymm h]
  · intro a b h1 h2; simp [intCmp, h1, h2]

theorem chCmp_laws : CmpLaws chCmp := by
  refine ltCmp_laws chCmp ?_ ?_ ?_
  · intro a b h; simp [chCmp, h]
  · intro a b h; simp [chCmp, h, asymm h]
  · intro a b h1 h2; simp [chCmp, h1, h2]

theorem lexCmp_cc_lt {f : α → α → Ordering} {a b : α} (as bs : List α)
    (h : f a b = .lt) : lexCmp f (a :: as) (b :: bs) = .lt := by
  show (match f a b with | .eq => lexCmp f as bs | o => o) = .lt
  rw [h]

theorem lexCmp_cc_gt {f : α → α → Ordering} {a b : α} (as bs : List α)
    (h : f a b = .gt) : lexCmp f (a :: as) (b :: bs) = .gt := by
  show (match f a b with | .eq => lexCmp f as bs | o => o) = .gt
  rw [h]

theorem lexCmp_cc_eq {f : α → α → Ordering} {a b : α} (as bs : List α)
    (h : f a b = .eq) : lexCmp f (a :: as) (b :: bs) = lexCmp f as bs := by
  show (match f a b with | .eq => lexCmp f as bs | o => o) = lexCmp f as bs
  rw [h]

theorem lexCmp_laws {f : α → α → Ordering} (hf : CmpLaws f) :
    CmpLaws (lexCmp f) := by
  constructor
  · intro a b
    induction a generalizing b with
    | nil => cases b <;> rfl
    | cons x xs ih =>
      cases b with
      | nil => rfl
      | cons y ys =>
        cases hxy : f x y
        · have hyx : f y x = .gt := by rw [← hf.swap_eq x y, hxy]; rfl
          rw [lexCmp_cc_lt xs ys hxy, lexCmp_cc_gt ys xs hyx]; rfl
        · have hyx : f y x = .eq := by rw [← hf.swap_eq x y, hxy]; rfl
          rw [lexCmp_cc_eq xs ys hxy, lexCmp_cc_eq ys xs hyx]
          exact ih ys
        · have hyx : f y x = .lt := by rw [← hf.swap_eq x y, hxy]; rfl
          rw [lexCmp_cc_gt xs ys hxy, lexCmp_cc_lt ys xs hyx]; rfl
  · intro a b h
    induction a generalizing b with
    | nil =>
      cases b with
      | nil => rfl
      | cons y ys => exact nomatch h
    | cons x xs ih =>
      cases b with
      | nil => exact nomatch h
      | cons y ys =>
        cases hxy : f x y
        · rw [lexCmp_cc_lt xs ys hxy] at h; exact absurd h (by decide)
        · rw [lexCmp_cc_eq xs ys hxy] at h
          rw [hf.eq_iff x y hxy, ih ys h]
        · rw [lexCmp_cc_gt xs ys hxy] at h; exact absurd h (by decide)
  · intro a b c hab hbc
    induction a generalizing b c with
    | nil =>
      cases b with
      | nil => exact nomatch hab
      | cons y ys =>
        cases c with
        | nil => exact nomatch hbc
        | cons z zs => rfl
    | cons x xs ih =>
      cases b with
      | nil => exact nomatch hab
      | cons y ys =>
        cases c with
        | nil => exact nomatch hbc
        | cons z zs =>
          cases hxy : f x y
          · cases hyz : f y z
            · exact lexCmp_cc_lt xs zs (hf.lt_trans x y z hxy hyz)
            · have hxz : f x z = .lt := by rw [← hf.eq_iff y z hyz]; exact hxy
              exact lexCmp_cc_lt xs zs hxz
            · rw [lexCmp_cc_gt ys zs hyz] at hbc; exact absurd hbc (by decide)
          · rw [lexCmp_cc_eq xs ys hxy] at hab
            cases hyz : f y z
            · have hxz : f x z = .lt := by rw [hf.eq_iff x y hxy]; exact hyz
              exact lexCmp_cc_lt xs zs hxz
            · rw [lexCmp_cc_eq ys zs hyz] at hbc
              have hxz : f x z = .eq := by
                rw [hf.eq_iff x y hxy, hf.eq_iff y z hyz]; exact hf.refl_eq z
              rw [lexCmp_cc_eq xs zs hxz]
              exact ih ys zs hab hbc
            · rw [lexCmp_cc_gt ys zs hyz] at hbc; exact absurd hbc (by decide)
          · rw [lexCmp_cc_gt xs ys hxy] at hab; exact absurd hab (by decide)

theorem strCmp_laws : CmpLaws strCmp := by
  constructor
  · intro a b; exact (lexCmp_laws chCmp_laws).swap_eq a.data b.data
  · intro a b h
    cases a; cases b
    exact congrArg String.mk ((lexCmp_laws chCmp_laws).eq_iff _ _ h)
  · intro a b c hab hbc
    exact (lexCmp_laws chCmp_laws).lt_trans a.data b.data c.data hab hbc

theorem nkCmp_laws : CmpLaws nkCmp := by
  constructor
  · intro a b
    cases a <;> cases b
    · exact intCmp_laws.swap_eq _ _
    · rfl
    · rfl
    · exact strCmp_laws.swap_eq _ _
  · intro a b h
    cases a <;> cases b
    · exact congrArg NK.num (intCmp_laws.eq_iff _ _ h)
    · exact nomatch h
    · exact nomatch h
    · exact congrArg NK.str (strCmp_laws.eq_iff _ _ h)
  · intro a b c hab hbc
    cases a <;> cases b <;> cases c
    · exact intCmp_laws.lt_trans _ _ _ hab hbc
    · rfl
    · exact nomatch hbc
    · rfl
    · exact nomatch hab
    · exact nomatch hab
    · exact nomatch hbc
    · exact strCmp_laws.lt_trans _ _ _ hab hbc

theorem keyCmpO_laws : CmpLaws keyCmpO := by
  constructor
  · intro a b
    cases a <;> cases b
    · rfl
    · rfl
    · rfl
    · exact (lexCmp_laws nkCmp_laws).swap_eq _ _
  · intro a b h
    cases a <;> cases b
    · rfl
    · exact nomatch h
    · exact nomatch h
    · exact congrArg some ((lexCmp_laws nkCmp_laws).eq_iff _ _ h)
  · intro a b c hab hbc
    cases a <;> cases b <;> cases c
    · exact nomatch hab
    · exact nomatch hab
    · exact nomatch hbc
    · rfl
    · exact nomatch hab
    · exact nomatch hab
    · exact nomatch hbc
    · exact (lexCmp_laws nkCmp_laws).lt_trans _ _ _ hab hbc

/-! ### Totality and transitivity of the relations used for sorting -/

theorem cmpLe_total {f : α → α → Ordering} (hf : CmpLaws f) (a b : α) :
    f a b ≠ .gt ∨ f b a ≠ .gt := by
  by_cases h : f a b = .gt
  · right
    rw [hf.gt_iff] at h
    rw [h]
    decide
  · left; exact h

theorem cmpLe_trans {f : α → α → Ordering} (hf : CmpLaws f) (a b c : α)
    (hab : f a b ≠ .gt) (hbc : f b c ≠ .gt) : f a c ≠ .gt := by
  cases hab' : f a b
  · cases hbc' : f b c
    · rw [hf.lt_trans a b c hab' hbc']
      decide
    · rw [← hf.eq_iff b c hbc', hab']
      decide
    · exact absurd hbc' hbc
  · rw [hf.eq_iff a b hab']
    exact hbc
  · exact absurd hab' hab

theorem cmpGe_total {f : α → α → Ordering} (hf : CmpLaws f) (a b : α) :
    f a b ≠ .lt ∨ f b a ≠ .lt := by
  by_cases h : f a b = .lt
  · right
    rw [← hf.gt_iff] at h
    rw [h]
    decide
  · left; exact h

theorem cmpGe_trans {f : α → α → Ordering} (hf : CmpLaws f) (a b c : α)
    (hab : f a b ≠ .lt) (hbc : f b c ≠ .lt) : f a c ≠ .lt := by
  cases hab' : f a b
  · exact absurd hab' hab
  · rw [hf.eq_iff a b hab']
    exact hbc
  · cases hbc' : f b c
    · exact absurd hbc' hbc
    · rw [← hf.eq_iff b c hbc', hab']
      decide
    · rw [hf.gt_iff] at hab' hbc'
      have hca := hf.lt_trans c b a hbc' hab'
      rw [← hf.gt_iff] at hca
      rw [hca]
      decide

instance : IsTotal Tag tagLe :=
  ⟨fun a b => cmpLe_total keyCmpO_laws (tag_sort_key a) (tag_sort_key b)⟩

instance : IsTrans Tag tagLe :=
  ⟨fun a b c => cmpLe_trans keyCmpO_laws (tag_sort_key a) (tag_sort_key b) (tag_sort_key c)⟩

instance : IsTotal String natDescLe :=
  ⟨fun a b => cmpGe_total (lexCmp_laws nkCmp_laws) (natural_key a) (natural_key b)⟩

instance : IsTrans String natDescLe :=
  ⟨fun a b c =>
    cmpGe_trans (lexCmp_laws nkCmp_laws) (natural_key a) (natural_key b) (natural_key c)⟩

/-! ### Structure of natural keys: alternation of text and numeric components

Python raises a TypeError when comparing an int with a str.  The model makes
the comparison partial (pyCmpNK, pyCmpList) and proves that between any two
natural keys, or any two keep_latest_n sort keys, it is always defined,
because every key alternates a text component at even positions with a
numeric component at odd positions. -/

/-- Checks alternation of a key, starting from a text component when the flag
is true: text components sit at even positions and numeric components at odd
positions. -/
def altFrom : Bool → List NK → Bool
  | _, [] => true
  | true, .str _ :: r => altFrom false r
  | true, .num _ :: _ => false
  | false, .num _ :: r => altFrom true r
  | false, .str _ :: _ => false

/-- Python comparison of two key components: undefined (TypeError) when an
int meets a str. -/
def pyCmpNK : NK → NK → Option Ordering
  | .num a, .num b => some (intCmp a b)
  | .str a, .str b => some (strCmp a b)
  | .num _, .str _ => none
  | .str _, .num _ => none

/-- Python lexicographic comparison of two key lists, undefined as soon as an
elementwise comparison is undefined. -/
def pyCmpList : List NK → List NK → Option Ordering
  | [], [] => some .eq
  | [], _ :: _ => some .lt
  | _ :: _, [] => some .gt
  | a :: as, b :: bs =>
    match pyCmpNK a b with
    | none => none
    | some .eq => pyCmpList as bs
    | some o => some o

/-- Python comparison of two keep_latest_n sort keys, i.e. of the tuples
(0,) and (1, key): the first components decide unless both keys carry a
list. -/
def pyCmpTagKey : Option (List NK) → Option (List NK) → Option Ordering
  | none, none => some .eq
  | none, some _ => some .lt
  | some _, none => some .gt
  | some a, some b => pyCmpList a b

/-- The invariant of the re.split output: runs alternate, starting with a
(possibly empty) digit-free text run; digit runs are nonempty and all
digits. -/
def sAlt : Bool → List String → Prop
  | _, [] => True
  | true, t :: r => (∀ c ∈ t.data, ¬ c.isDigit = true) ∧ sAlt false r
  | false, d :: r => d.data ≠ [] ∧ (∀ c ∈ d.data, c.isDigit = true) ∧ sAlt true r

theorem nsplit_sound : ∀ l : List Char, sAlt true (nsplit l) ∧ nsplit l ≠ [] := by
  intro l
  induction l with
  | nil =>
    constructor
    · show (∀ c ∈ ("" : String).data, ¬ c.isDigit = true) ∧ sAlt false []
      exact ⟨fun c hc => absurd hc (List.not_mem_nil c), trivial⟩
    · simp [nsplit]
  | cons c cs ih =>
    obtain ⟨hAlt, hne⟩ := ih
    rcases hsp : nsplit cs with _ | ⟨t, tail⟩
    · exact absurd hsp hne
    rw [hsp] at hAlt
    obtain ⟨htext, htail⟩ := hAlt
    by_cases hd : c.isDigit
    · by_cases ht : t = ""
      · rcases htail' : tail with _ | ⟨d, r⟩
        · constructor
          · show sAlt true (nsplit (c :: cs))
            simp only [nsplit, hsp, if_pos hd, if_pos ht, htail']
            refine ⟨by intro x hx; simp at hx, ?_, ?_, ?_, trivial⟩
            · simp [strCons]
            · intro x hx
              simp only [strCons] at hx
              simp at hx
              rw [hx]
              exact hd
            · subst ht
              exact htext
          · simp only [nsplit, hsp, if_pos hd, if_pos ht, htail']
            simp
        · rw [htail'] at htail
          obtain ⟨hdne, hdall, hrest⟩ := htail
          constructor
          · show sAlt true (nsplit (c :: cs))
            simp only [nsplit, hsp, if_pos hd, if_pos ht, htail']
            refine ⟨by intro x hx; simp at hx, ?_, ?_, hrest⟩
            · simp [strCons]
            · intro x hx
              simp only [strCons] at hx
              simp at hx
              rcases hx with hx | hx
              · rw [hx]; exact hd
              · exact hdall x hx
          · simp only [nsplit, hsp, if_pos hd, if_pos ht, htail']
            simp
      · constructor
        · show sAlt true (nsplit (c :: cs))
          simp only [nsplit, hsp, if_pos hd, if_neg ht]
          refine ⟨by intro x hx; simp at hx, ?_, ?_, htext, htail⟩
          · simp [strCons]
          · intro x hx
            simp only [strCons] at hx
            simp at hx
            rw [hx]
            exact hd
        · simp only [nsplit, hsp, if_pos hd, if_neg ht]
          simp
    · constructor
      · show sAlt true (nsplit (c :: cs))
        simp only [nsplit, hsp, if_neg hd]
        refine ⟨?_, htail⟩
        intro x hx
        simp only [strCons] at hx
        simp at hx
        rcases hx with hx | hx
        · rw [hx]; exact hd
        · exact htext x hx
      · simp only [nsplit, hsp, if_neg hd]
        simp

theorem pyIsdigit_of_digits {d : String} (hne : d.data ≠ [])
    (hall : ∀ c ∈ d.data, c.isDigit = true) : pyIsdigit d = true := by
  unfold pyIsdigit
  rcases hd : d.data with _ | ⟨c, cs⟩
  · exact absurd hd hne
  · simp only [List.isEmpty_cons, Bool.not_false, Bool.true_and]
    rw [List.all_eq_true]
    intro x hx
    exact hall x (hd ▸ hx)

theorem pyIsdigit_of_text {t : String} (htext : ∀ c ∈ t.data, ¬ c.isDigit = true) :
    pyIsdigit t = false := by
  unfold pyIsdigit
  rcases hd : t.data with _ | ⟨c, cs⟩
  · simp
  · simp only [List.isEmpty_cons, Bool.not_false, Bool.true_and]
    rw [List.all_eq_false]
    exact ⟨c, hd ▸ List.mem_cons_self c cs, htext c (hd ▸ List.mem_cons_self c cs)⟩

theorem altFrom_of_sAlt : ∀ (b : Bool) (l : List String), sAlt b l →
    altFrom b (l.map fun t =>
      if pyIsdigit t then NK.num (Int.ofNat (digitsToNat t)) else NK.str (pyLower t)) = true := by
  intro b l
  induction l generalizing b with
  | nil => intro _; cases b <;> rfl
  | cons t r ih =>
    intro h
    cases b with
    | true =>
      obtain ⟨htext, hrest⟩ := h
      simp only [List.map]
      rw [if_neg (by simp [pyIsdigit_of_text htext])]
      exact ih false hrest
    | false =>
      obtain ⟨hne, hall, hrest⟩ := h
      simp only [List.map]
      rw [if_pos (pyIsdigit_of_digits hne hall)]
      exact ih true hrest

theorem natural_key_alt (s : String) : altFrom true (natural_key s) = true :=
  altFrom_of_sAlt true (nsplit s.data) (nsplit_sound s.data).1

theorem altFrom_negKey : ∀ (b : Bool) (l : List NK),
    altFrom b (negKey l) = altFrom b l := by
  intro b l
  induction l generalizing b with
  | nil => rfl
  | cons x r ih =>
    cases x <;> cases b <;> simp only [negKey, List.map, altFrom] <;>
      first
      | rfl
      | exact (negKey.eq_def ▸ ih _)

theorem pyCmpList_isSome : ∀ (b : Bool) (k1 k2 : List NK),
    altFrom b k1 = true → altFrom b k2 = true →
    (pyCmpList k1 k2).isSome = true := by
  intro b k1
  induction k1 generalizing b with
  | nil =>
    intro k2 _ _
    cases k2 <;> rfl
  | cons x xs ih =>
    intro k2 h1 h2
    cases k2 with
    | nil => rfl
    | cons y ys =>
      cases b with
      | true =>
        cases x with
        | num n => exact absurd h1 (by simp [altFrom])
        | str s =>
          cases y with
          | num m => exact absurd h2 (by simp [altFrom])
          | str t =>
            show (match pyCmpNK (NK.str s) (NK.str t) with
              | none => none
              | some .eq => pyCmpList xs ys
              | some o => some o).isSome = true
            simp only [pyCmpNK]
            cases strCmp s t
            · rfl
            · exact ih false ys h1 h2
            · rfl
      | false =>
        cases x with
        | str s => exact absurd h1 (by simp [altFrom])
        | num n =>
          cases y with
          | str t => exact absurd h2 (by simp [altFrom])
          | num m =>
            show (match pyCmpNK (NK.num n) (NK.num m) with
              | none => none
              | some .eq => pyCmpList xs ys
              | some o => some o).isSome = true
            simp only [pyCmpNK]
            cases intCmp n m
            · rfl
            · exact ih true ys h1 h2
            · rfl

theorem pyCmpTagKey_isSome (a b : Tag) :
    (pyCmpTagKey (tag_sort_key a) (tag_sort_key b)).isSome = true := by
  unfold tag_sort_key
  by_cases ha : a.name = "latest" <;> by_cases hb : b.name = "latest" <;>
    simp only [if_pos, if_neg, ha, hb, if_true, if_false]
  · rfl
  · rfl
  · rfl
  · show (pyCmpList (negKey (natural_key a.name)) (negKey (natural_key b.name))).isSome = true
    refine pyCmpList_isSome true _ _ ?_ ?_
    · rw [altFrom_negKey]
      exact natural_key_alt a.name
    · rw [altFrom_negKey]
      exact natural_key_alt b.name

/-- C9: keys produced by the natural-key function are mutually comparable
without error: each key alternates text components at even positions with
integer components at odd positions, so elementwise comparison never compares
an integer with a string, and comparing any two natural keys (or any two
keep_latest_n tag sort keys) under the partial Python comparison is always
defined, so sorting by these keys is total and never raises. -/
theorem C9_keys_comparable (s t : String) (a b : Tag) :
    altFrom true (natural_key s) = true ∧
    (pyCmpList (natural_key s) (natural_key t)).isSome = true ∧
    (pyCmpTagKey (tag_sort_key a) (tag_sort_key b)).isSome = true :=
  ⟨natural_key_alt s,
   pyCmpList_isSome true _ _ (natural_key_alt s) (natural_key_alt t),
   pyCmpTagKey_isSome a b⟩

/-! ### Properties of the Name Filter -/

theorem filter_names_nil (names : List String) : filter_names names [] = .ok names := rfl

theorem filter_names_cons (names : List String) (r : RuleDict) (rs : List RuleDict) :
    filter_names names (r :: rs) =
      (nameStep names r).bind fun m => filter_names m rs := by
  show (nameStep names r >>= fun m => List.foldlM nameStep m rs) = _
  cases nameStep names r <;> rfl

theorem filter_names_append (names : List String) (r1 r2 : List RuleDict) :
    filter_names names (r1 ++ r2) =
      (filter_names names r1).bind fun m => filter_names m r2 := by
  induction r1 generalizing names with
  | nil => rfl
  | cons r rs ih =>
    rw [List.cons_append, filter_names_cons, filter_names_cons]
    cases nameStep names r with
    | error e => rfl
    | ok m => exact ih m

theorem nameStep_none {names : List String} {r : RuleDict} (h : r.repo_regex = none) :
    nameStep names r = .ok names := by
  unfold nameStep
  rw [h]
  rfl

theorem nameStep_some {names : List String} {r : RuleDict} {p : PatStr} {rx : Regex}
    (h : r.repo_regex = some p) (hc : patCompile p = .ok rx) :
    nameStep names r = .ok (names.filter fun n => rmatch rx n.data) := by
  unfold nameStep
  rw [h]
  show (patCompile p >>= fun rx => pure (names.filter fun n => rmatch rx n.data)) = _
  rw [hc]
  rfl

theorem nameStep_some_err {names : List String} {r : RuleDict} {p : PatStr} {e : PyErr}
    (h : r.repo_regex = some p) (hc : patCompile p = .error e) :
    nameStep names r = .error e := by
  unfold nameStep
  rw [h]
  show (patCompile p >>= fun rx => pure (names.filter fun n => rmatch rx n.data)) = _
  rw [hc]
  rfl

theorem nameStep_sublist {names m : List String} {r : RuleDict}
    (h : nameStep names r = .ok m) : m.Sublist names := by
  cases hr : r.repo_regex with
  | none =>
    rw [nameStep_none hr] at h
    cases h
    exact List.Sublist.refl names
  | some p =>
    cases hc : patCompile p with
    | error e =>
      rw [nameStep_some_err hr hc] at h
      exact nomatch h
    | ok rx =>
      rw [nameStep_some hr hc] at h
      cases h
      exact List.filter_sublist names

theorem filter_names_sublist {names res : List String} {rules : List RuleDict}
    (h : filter_names names rules = .ok res) : res.Sublist names := by
  induction rules generalizing names with
  | nil =>
    rw [filter_names_nil] at h
    cases h
    exact List.Sublist.refl res
  | cons r rs ih =>
    rw [filter_names_cons] at h
    cases hs : nameStep names r with
    | error e => rw [hs] at h; exact nomatch h
    | ok m =>
      rw [hs] at h
      exact (ih h).trans (nameStep_sublist hs)

theorem filter_names_mem {names res : List String} {rules : List RuleDict}
    (h : filter_names names rules = .ok res) :
    ∀ x, x ∈ res ↔ x ∈ names ∧ ∀ r ∈ rules, ∀ p, r.repo_regex = some p →
      ∀ rx, patCompile p = .ok rx → rmatch rx x.data = true := by
  induction rules generalizing names with
  | nil =>
    rw [filter_names_nil] at h
    cases h
    intro x
    constructor
    · intro hx
      exact ⟨hx, fun r hr => absurd hr (List.not_mem_nil r)⟩
    · intro hx
      exact hx.1
  | cons r rs ih =>
    rw [filter_names_cons] at h
    cases hs : nameStep names r with
    | error e => rw [hs] at h; exact nomatch h
    | ok m =>
      rw [hs] at h
      intro x
      rw [ih h x]
      cases hr : r.repo_regex with
      | none =>
        rw [nameStep_none hr] at hs
        cases hs
        constructor
        · intro hx
          refine ⟨hx.1, ?_⟩
          intro r' hr' p hp rx hrx
          rcases List.mem_cons.mp hr' with h1 | h1
          · subst h1
            rw [hr] at hp
            exact nomatch hp
          · exact hx.2 r' h1 p hp rx hrx
        · intro hx
          exact ⟨hx.1, fun r' h1 p hp rx hrx => hx.2 r' (List.mem_cons_of_mem r h1) p hp rx hrx⟩
      | some p =>
        cases hc : patCompile p with
        | error e =>
          rw [nameStep_some_err hr hc] at hs
          exact nomatch hs
        | ok rx =>
          rw [nameStep_some hr hc] at hs
          cases hs
          rw [List.mem_filter]
          constructor
          · intro hx
            refine ⟨hx.1.1, ?_⟩
            intro r' hr' p' hp' rx' hrx'
            rcases List.mem_cons.mp hr' with h1 | h1
            · subst h1
              rw [hr] at hp'
              cases hp'
              rw [hc] at hrx'
              cases hrx'
              exact hx.1.2
            · exact hx.2 r' h1 p' hp' rx' hrx'
          · intro hx
            refine ⟨⟨hx.1, ?_⟩, ?_⟩
            · exact hx.2 r (List.mem_cons_self r rs) p hr rx hc
            · intro r' h1 p' hp' rx' hrx'
              exact hx.2 r' (List.mem_cons_of_mem r h1) p' hp' rx' hrx'

/-- C5: the Name Filter retains exactly the names whose prefix matches every
rule pattern (prefix-anchored, not full-string), composes rule lists by
intersection, preserves input order (the result is a sublist of the input),
and is the identity on the empty rule list; the final conjunct shows a
pattern that matches a proper prefix but not the full string still passes. -/
theorem C5_name_filter (names : List String) (rules : List RuleDict)
    (res : List String) (h : filter_names names rules = .ok res) :
    (∀ x, x ∈ res ↔ x ∈ names ∧ ∀ r ∈ rules, ∀ p, r.repo_regex = some p →
      ∀ rx, patCompile p = .ok rx → rmatch rx x.data = true) ∧
    res.Sublist names ∧
    (∀ l : List String, filter_names l [] = .ok l) ∧
    (∀ (r1 r2 : List RuleDict) (l : List String),
      filter_names l (r1 ++ r2) = (filter_names l r1).bind fun m => filter_names m r2) ∧
    (rmatch (Regex.chr 'v') "v1".data = true ∧ fullmatch (Regex.chr 'v') "v1".data = false) :=
  ⟨filter_names_mem h, filter_names_sublist h, filter_names_nil,
   fun r1 r2 l => filter_names_append l r1 r2, by decide, by decide⟩

theorem C5_name_filter_witness :
    ∃ res, filter_names ["app", "lib"] [{repo_regex := some (.valid (Regex.chr 'a'))}] = .ok res ∧
      res.Sublist ["app", "lib"] ∧ "app" ∈ res :=
  ⟨["app"], rfl,
   (C5_name_filter ["app", "lib"] [{repo_regex := some (.valid (Regex.chr 'a'))}]
     ["app"] rfl).2.1,
   by decide⟩

/-! ### Properties of KeepMostRecent -/

theorem pyMaxLU_spec (x : Tag) (xs : List Tag) :
    ∃ l1 l2, x :: xs = l1 ++ pyMaxLU x xs :: l2 ∧
      (∀ u ∈ x :: xs, u.last_updated ≤ (pyMaxLU x xs).last_updated) ∧
      (∀ u ∈ l1, u.last_updated < (pyMaxLU x xs).last_updated) := by
  induction xs generalizing x with
  | nil =>
    refine ⟨[], [], rfl, ?_, ?_⟩
    · intro u hu
      rcases List.mem_cons.mp hu with h | h
      · subst h
        exact le_refl _
      · exact absurd h (List.not_mem_nil u)
    · intro u hu
      exact absurd hu (List.not_mem_nil u)
  | cons y ys ih =>
    have hstep : pyMaxLU x (y :: ys) =
        pyMaxLU (if x.last_updated < y.last_updated then y else x) ys := rfl
    by_cases hxy : x.last_updated < y.last_updated
    · rw [hstep, if_pos hxy]
      obtain ⟨l1, l2, hdec, hle, hlt⟩ := ih y
      refine ⟨x :: l1, l2, ?_, ?_, ?_⟩
      · rw [List.cons_append, ← hdec]
      · intro u hu
        rcases List.mem_cons.mp hu with h | h
        · subst h
          exact le_of_lt (lt_of_lt_of_le hxy (hle y (List.mem_cons_self y ys)))
        · exact hle u h
      · intro u hu
        rcases List.mem_cons.mp hu with h | h
        · subst h
          exact lt_of_lt_of_le hxy (hle y (List.mem_cons_self y ys))
        · exact hlt u h
    · rw [hstep, if_neg hxy]
      have hyx : y.last_updated ≤ x.last_updated := le_of_not_lt hxy
      obtain ⟨l1, l2, hdec, hle, hlt⟩ := ih x
      cases l1 with
      | nil =>
        simp only [List.nil_append] at hdec
        injection hdec with hm hl2
        refine ⟨[], y :: ys, ?_, ?_, ?_⟩
        · rw [List.nil_append, ← hm]
        · intro u hu
          rcases List.mem_cons.mp hu with h | h
          · subst h
            rw [← hm]
          · rcases List.mem_cons.mp h with h2 | h2
            · subst h2
              rw [← hm]
              exact hyx
            · exact hle u (List.mem_cons_of_mem x h2)
        · intro u hu
          exact absurd hu (List.not_mem_nil u)
      | cons a l1t =>
        rw [List.cons_append] at hdec
        injection hdec with ha1 hys1
        have ha : a = x := ha1.symm
        have hys : ys = l1t ++ pyMaxLU x ys :: l2 := hys1
        refine ⟨x :: y :: l1t, l2, ?_, ?_, ?_⟩
        · rw [List.cons_append, List.cons_append, ← hys]
        · intro u hu
          rcases List.mem_cons.mp hu with h | h
          · subst h
            exact hle u (List.mem_cons_self u _)
          · rcases List.mem_cons.mp h with h2 | h2
            · subst h2
              exact le_trans hyx (hle x (List.mem_cons_self x ys))
            · exact hle u (List.mem_cons_of_mem x h2)
        · intro u hu
          have hxlt : x.last_updated < (pyMaxLU x ys).last_updated := by
            have := hlt a (List.mem_cons_self a l1t)
            rw [ha] at this
            exact this
          rcases List.mem_cons.mp hu with h | h
          · subst h
            exact hxlt
          · rcases List.mem_cons.mp h with h2 | h2
            · subst h2
              exact lt_of_le_of_lt hyx hxlt
            · exact hlt u (List.mem_cons_of_mem a h2)

/-- C6: a KeepMostRecent rule maps the empty working list to the empty list
without error, and a nonempty working list to the single tag whose
last_updated is maximal, ties resolved to the first such tag in input
order. -/
theorem C6_keep_most_recent (tags : List Tag) (rule : RuleDict)
    (hr : rule.tag_regex = none) (hk : rule.keep_most_recent = true) :
    (tags = [] → filter_tags tags [rule] = .ok []) ∧
    (tags ≠ [] → ∃ m l1 l2, filter_tags tags [rule] = .ok [m] ∧
      tags = l1 ++ m :: l2 ∧
      (∀ u ∈ tags, u.last_updated ≤ m.last_updated) ∧
      (∀ u ∈ l1, u.last_updated < m.last_updated)) := by
  have hempty : tagStep ([] : List Tag) rule = .ok [] := tagStep_none_kmr hr hk
  have hstep : ∀ (x : Tag) (xs : List Tag), tagStep (x :: xs) rule = .ok [pyMaxLU x xs] :=
    fun x xs => tagStep_none_kmr hr hk
  constructor
  · intro he
    subst he
    show (tagStep [] rule >>= fun s => List.foldlM tagStep s []) = .ok []
    rw [hempty]
    rfl
  · intro hne
    rcases tags with _ | ⟨x, xs⟩
    · exact absurd rfl hne
    obtain ⟨l1, l2, hdec, hle, hlt⟩ := pyMaxLU_spec x xs
    refine ⟨pyMaxLU x xs, l1, l2, ?_, hdec, hle, hlt⟩
    show (tagStep (x :: xs) rule >>= fun s => List.foldlM tagStep s []) = .ok [pyMaxLU x xs]
    rw [hstep]
    rfl

theorem C6_keep_most_recent_witness :
    ∃ m, filter_tags [⟨"a", 5⟩, ⟨"b", 9⟩, ⟨"c", 9⟩] [{keep_most_recent := true}] = .ok [m] ∧
      m = ⟨"b", 9⟩ := by
  obtain ⟨m, l1, l2, hrun, hdec, hle, hlt⟩ :=
    (C6_keep_most_recent [⟨"a", 5⟩, ⟨"b", 9⟩, ⟨"c", 9⟩] {keep_most_recent := true} rfl rfl).2
      (by decide)
  refine ⟨m, hrun, ?_⟩
  have : filter_tags [⟨"a", 5⟩, ⟨"b", 9⟩, ⟨"c", 9⟩] [{keep_most_recent := true}] =
      .ok [⟨"b", 9⟩] := rfl
  rw [this] at hrun
  cases hrun
  rfl

/-- C10: a rule dict carrying both a tag_regex clause and a truthy
keep_most_recent takes only the tag-regex family branch; the result is the
same as if keep_most_recent were absent, and no error arises beyond the ones
the tag-regex branch itself can raise (none when the pattern compiles). -/
theorem C10_mixing_ignored (tags : List Tag) (rule : RuleDict) (p : PatStr)
    (hp : rule.tag_regex = some p) (hk : rule.keep_most_recent = true) :
    filter_tags tags [rule] = filter_tags tags [{rule with keep_most_recent := false}] ∧
    (∀ rx, patCompile p = .ok rx → ∃ out, filter_tags tags [rule] = .ok out) := by
  constructor
  · show (tagStep tags rule >>= fun s => List.foldlM tagStep s []) =
      (tagStep tags {rule with keep_most_recent := false} >>= fun s => List.foldlM tagStep s [])
    have heq : tagStep tags rule = tagStep tags {rule with keep_most_recent := false} := by
      obtain ⟨rr, tr, bl, kn, km⟩ := rule
      cases hp
      rfl
    rw [heq]
  · intro rx hrx
    by_cases he : p = .empty
    · refine ⟨tagRegexApply tags rule none, ?_⟩
      show (tagStep tags rule >>= fun s => List.foldlM tagStep s []) = _
      rw [he] at hp
      rw [tagStep_some_empty hp]
      rfl
    · refine ⟨tagRegexApply tags rule (some rx), ?_⟩
      show (tagStep tags rule >>= fun s => List.foldlM tagStep s []) = _
      rw [tagStep_some_ok hp he hrx]
      rfl

theorem C10_mixing_ignored_witness :
    filter_tags [⟨"v1", 0⟩, ⟨"x", 9⟩]
        [{tag_regex := some (.valid (Regex.chr 'v')), keep_most_recent := true}] =
      filter_tags [⟨"v1", 0⟩, ⟨"x", 9⟩]
        [{tag_regex := some (.valid (Regex.chr 'v')), keep_most_recent := false}] :=
  (C10_mixing_ignored [⟨"v1", 0⟩, ⟨"x", 9⟩] _ (.valid (Regex.chr 'v')) rfl rfl).1

/-! ### The keep_latest_n ordering, stated without the negation encoding -/

/-- Natural-order comparison with only the numeric components inverted:
at the first differing position, a larger number sorts first, while text
components compare in ascending case-folded order; a strict prefix sorts
first.  This is the ordering the code's negated sort key realises. -/
def amCmp : List NK → List NK → Ordering
  | [], [] => .eq
  | [], _ :: _ => .lt
  | _ :: _, [] => .gt
  | a :: as, b :: bs =>
    match a, b with
    | .num x, .num y =>
      match intCmp y x with
      | .eq => amCmp as bs
      | o => o
    | .str s, .str t =>
      match strCmp s t with
      | .eq => amCmp as bs
      | o => o
    | .num _, .str _ => .lt
    | .str _, .num _ => .gt

def amTagLe (t u : Tag) : Prop :=
  if t.name = "latest" then True
  else if u.name = "latest" then False
  else amCmp (natural_key t.name) (natural_key u.name) ≠ .gt

instance : DecidableRel amTagLe := fun t u => by
  unfold amTagLe
  infer_instance

/-- The ordering the claim describes for keep_latest_n: latest first, then
every key component inverted, the text components included (descending
case-folded text). -/
def claimCmpC1 : List NK → List NK → Ordering
  | [], [] => .eq
  | [], _ :: _ => .lt
  | _ :: _, [] => .gt
  | a :: as, b :: bs =>
    match a, b with
    | .num x, .num y =>
      match intCmp y x with
      | .eq => claimCmpC1 as bs
      | o => o
    | .str s, .str t =>
      match strCmp t s with
      | .eq => claimCmpC1 as bs
      | o => o
    | .num _, .str _ => .lt
    | .str _, .num _ => .gt

def claimTagLeC1 (t u : Tag) : Prop :=
  if t.name = "latest" then True
  else if u.name = "latest" then False
  else claimCmpC1 (natural_key t.name) (natural_key u.name) ≠ .gt

instance : DecidableRel claimTagLeC1 := fun t u => by
  unfold claimTagLeC1
  infer_instance

theorem intCmp_neg (x y : Int) : intCmp (-x) (-y) = intCmp y x := by
  unfold intCmp
  split_ifs <;> first | rfl | (exfalso; omega)

theorem negKey_lexCmp : ∀ a b : List NK,
    lexCmp nkCmp (negKey a) (negKey b) = amCmp a b := by
  intro a
  induction a with
  | nil =>
    intro b
    cases b <;> rfl
  | cons x xs ih =>
    intro b
    cases b with
    | nil => cases x <;> rfl
    | cons y ys =>
      cases x with
      | num nx =>
        cases y with
        | num ny =>
          rw [show lexCmp nkCmp (negKey (NK.num nx :: xs)) (negKey (NK.num ny :: ys)) =
            (match intCmp (-nx) (-ny) with
              | .eq => lexCmp nkCmp (negKey xs) (negKey ys)
              | o => o) from rfl]
          rw [show amCmp (NK.num nx :: xs) (NK.num ny :: ys) =
            (match intCmp ny nx with
              | .eq => amCmp xs ys
              | o => o) from rfl]
          rw [intCmp_neg]
          cases hc : intCmp ny nx
          · rfl
          · exact ih ys
          · rfl
        | str sy => rfl
      | str sx =>
        cases y with
        | num ny => rfl
        | str sy =>
          rw [show lexCmp nkCmp (negKey (NK.str sx :: xs)) (negKey (NK.str sy :: ys)) =
            (match strCmp sx sy with
              | .eq => lexCmp nkCmp (negKey xs) (negKey ys)
              | o => o) from rfl]
          rw [show amCmp (NK.str sx :: xs) (NK.str sy :: ys) =
            (match strCmp sx sy with
              | .eq => amCmp xs ys
              | o => o) from rfl]
          cases hc : strCmp sx sy
          · rfl
          · exact ih ys
          · rfl

theorem tagLe_iff_amTagLe (t u : Tag) : tagLe t u ↔ amTagLe t u := by
  unfold tagLe amTagLe tag_sort_key
  by_cases ht : t.name = "latest" <;> by_cases hu : u.name = "latest" <;>
    simp only [ht, hu, if_true, if_false, keyCmpO]
  · simp
  · simp
  · simp
  · rw [negKey_lexCmp]

theorem insertionSort_congr {α} {r s : α → α → Prop}
    [DecidableRel r] [DecidableRel s] (h : ∀ a b, r a b ↔ s a b) :
    ∀ l : List α, List.insertionSort r l = List.insertionSort s l := by
  have hins : ∀ (x : α) (l : List α),
      List.orderedInsert r x l = List.orderedInsert s x l := by
    intro x l
    induction l with
    | nil => rfl
    | cons y ys ih =>
      by_cases hr : r x y
      · rw [List.orderedInsert, if_pos hr, List.orderedInsert, if_pos ((h x y).mp hr)]
      · rw [List.orderedInsert, if_neg hr, List.orderedInsert,
          if_neg (fun hs => hr ((h x y).mpr hs)), ih]
  intro l
  induction l with
  | nil => rfl
  | cons x xs ih =>
    rw [List.insertionSort, List.insertionSort, ih, hins]

/-- The rule dict of a keep_latest_n clause, with a falsy tag_regex so only
the sort-and-truncate sub-clause acts. -/
def klnRule (n : Int) : RuleDict := {tag_regex := some .empty, keep_latest_n := some n}

/-- C1 (amended): a keep_latest_n rule sorts the working list with the tag
named latest first and the remaining tags ordered by natural key with the
numeric components inverted and the text components ascending
(case-insensitively), then keeps the first n entries; on the claim's
examples the results are exactly the claimed ones. -/
theorem C1_keep_latest_n_amended (tags : List Tag) (n : Int) :
    filter_tags tags [klnRule n] = .ok (pyTake n (List.insertionSort amTagLe tags)) ∧
    (∀ m : Nat, pyTake (Int.ofNat m) (List.insertionSort amTagLe tags) =
      (List.insertionSort amTagLe tags).take m) ∧
    filter_tags [⟨"1.0", 0⟩, ⟨"1.2", 0⟩, ⟨"latest", 0⟩, ⟨"1.1", 0⟩] [klnRule 2] =
      .ok [⟨"latest", 0⟩, ⟨"1.2", 0⟩] ∧
    filter_tags [⟨"1.0", 0⟩, ⟨"1.2", 0⟩, ⟨"latest", 0⟩, ⟨"1.1", 0⟩] [klnRule 0] =
      .ok [] := by
  refine ⟨?_, ?_, rfl, rfl⟩
  · show (tagStep tags (klnRule n) >>= fun s => List.foldlM tagStep s []) = _
    rw [tagStep_some_empty rfl]
    show Except.ok (pyTake n (List.insertionSort tagLe tags)) = _
    rw [insertionSort_congr tagLe_iff_amTagLe]
  · intro m
    unfold pyTake
    rw [if_pos (by exact Int.ofNat_nonneg m)]
    rfl

/-- C1 counterexample: the claim asks for every key component to be compared
inverted, text included; on two purely textual tags the code keeps ascending
text order, while the ordering described by the claim would reverse them. -/
theorem C1_keep_latest_n_counterexample :
    filter_tags [⟨"alpha", 0⟩, ⟨"beta", 0⟩] [klnRule 2] =
      .ok [⟨"alpha", 0⟩, ⟨"beta", 0⟩] ∧
    pyTake 2 (List.insertionSort claimTagLeC1 [⟨"alpha", 0⟩, ⟨"beta", 0⟩]) =
      [⟨"beta", 0⟩, ⟨"alpha", 0⟩] ∧
    filter_tags [⟨"alpha", 0⟩, ⟨"beta", 0⟩] [klnRule 2] ≠
      .ok (pyTake 2 (List.insertionSort claimTagLeC1 [⟨"alpha", 0⟩, ⟨"beta", 0⟩])) := by
  exact ⟨rfl, rfl, by decide⟩

/-! ### The main pipeline (source lines 100-174)

The external collaborators are parameters: fetchR models
fetch_all_repositories (namespace to repository records) and fetchT models
fetch_all_tags.  Output documents are ordered association lists, matching
CPython dict insertion-order semantics; observable effects (network fetches,
file writes, diagnostics) are recorded as an event trace in program order. -/

structure RepoRec where
  name : String
deriving DecidableEq, Repr

structure SoftwareMeta where
  name : String
  sort_order : Option Int := none
  description : Option String := none
deriving DecidableEq, Repr

structure RepoConf where
  ns : String
  filters : List RuleDict := []
  software : List String := []
deriving DecidableEq, Repr

structure Config where
  repositories : List RepoConf
  software : List SoftwareMeta := []
deriving DecidableEq, Repr

inductive Event where
  | fetchRepos (ns : String)
  | fetchTagsEv (ns repo : String)
  | writeFile (path : String)
  | diag (label : String)
deriving DecidableEq, Repr

/-- Python dict assignment d[k] = v: replace the value in place when the key
exists, else append the new entry. -/
def updAssoc {A : Type} : List (String × A) → String → A → List (String × A)
  | [], k, v => [(k, v)]
  | (k2, v2) :: rest, k, v =>
    if k2 = k then (k, v) :: rest else (k2, v2) :: updAssoc rest k v

def assocFind {A : Type} : List (String × A) → String → Option A
  | [], _ => none
  | (k2, v2) :: rest, k => if k2 = k then some v2 else assocFind rest k

/-- software_output[s][k] = v on a defaultdict of dicts. -/
def updAssoc2 (l : List (String × List (String × List String))) (s k : String)
    (v : List String) : List (String × List (String × List String)) :=
  match assocFind l s with
  | some inner => updAssoc l s (updAssoc inner k v)
  | none => l ++ [(s, [(k, v)])]

/-- Adding an element to the unknown_software set, modelled as a list with
no duplicates. -/
def insertNew (l : List String) (s : String) : List String :=
  if l.contains s then l else l ++ [s]

/-- Last-wins dict comprehension over the software section:
software_meta = (s[name] -> s). -/
def smFind (metas : List SoftwareMeta) (k : String) : Option SoftwareMeta :=
  metas.reverse.find? fun s => s.name = k

/-- software_sortorder.get(k, 999). -/
def software_sortorder (metas : List SoftwareMeta) (k : String) : Int :=
  match smFind metas k with
  | some s => s.sort_order.getD 999
  | none => 999

/-- software_desc.get(k, ''). -/
def software_desc (metas : List SoftwareMeta) (k : String) : String :=
  match smFind metas k with
  | some s => s.description.getD ""
  | none => ""

/-- str.startswith. -/
def pyStartswith (s pre : String) : Bool := pre.data.isPrefixOf s.data

/-- The inner loop of the repo_sortorder computation for one repository
config entry: iterate its software labels; when the namespace prefix-matches
the repository key, keep the running minimum sort order; the accumulator is
some exactly when the Python found flag was set. -/
def confScan (soGet : String → Int) (repo_key : String) (conf : RepoConf) : Option Int :=
  conf.software.foldl
    (fun acc s =>
      if pyStartswith repo_key conf.ns then
        let sorder := soGet s
        match acc with
        | none => some sorder
        | some cur => some (if sorder < cur then sorder else cur)
      else acc)
    none

/-- The outer loop of the repo_sortorder computation: scan the repository
configs in order and break at the first one that set the found flag;
a key no config matched gets 999. -/
def repoOrderScan (soGet : String → Int) (repo_key : String) : List RepoConf → Int
  | [] => 999
  | conf :: rest =>
    match confScan soGet repo_key conf with
    | some v => v
    | none => repoOrderScan soGet repo_key rest

/-- The state of the main loop. -/
structure St where
  output : List (String × List String) := []
  all_repos_output : List (String × List String) := []
  software_output : List (String × List (String × List String)) := []
  unknown_software : List String := []
  events : List Event := []
deriving DecidableEq, Repr

/-- A left fold that aborts on the first raised exception, keeping the state
(and so the event trace) reached at the raise. -/
def foldlE {σ α : Type} (f : σ → α → Except (σ × PyErr) σ) :
    σ → List α → Except (σ × PyErr) σ
  | st, [] => .ok st
  | st, a :: as =>
    match f st a with
    | .error e => .error e
    | .ok st2 => foldlE f st2 as

/-- Recording one processed repository: the AllowedRepos entry and the
per-software group entries (source lines 132-135). -/
def repoApply (st1 : St) (ns repository : String) (softlist : List String)
    (tag_names_sorted : List String) : St :=
  let repo_key := ns ++ "/" ++ repository
  let newSoftware :=
    softlist.foldl (fun so s => updAssoc2 so s repo_key tag_names_sorted)
      st1.software_output
  {st1 with
    output := updAssoc st1.output repo_key tag_names_sorted,
    software_output := newSoftware}

/-- The body of the inner repository loop (source lines 126-135). -/
def procRepo (fetchT : String → String → List Tag) (tag_filters : List RuleDict)
    (softlist : List String) (ns : String) (st : St) (repository : String) :
    Except (St × PyErr) St :=
  let tags := fetchT ns repository
  let st1 := {st with events := st.events ++ [.fetchTagsEv ns repository]}
  match (if tag_filters.isEmpty then Except.ok tags else filter_tags tags tag_filters) with
  | .error e => .error (st1, e)
  | .ok filtered_tags =>
    .ok (repoApply st1 ns repository softlist (finalTagSort (filtered_tags.map Tag.name)))

/-- The split of a config entry rule list into name rules (source line
113). -/
def repoFiltersOf (conf : RepoConf) : List RuleDict :=
  conf.filters.filter fun f => f.repo_regex.isSome

/-- The split of a config entry rule list into tag rules (source line
114). -/
def tagFiltersOf (conf : RepoConf) : List RuleDict :=
  conf.filters.filter fun f =>
    f.tag_regex.isSome || f.keep_most_recent || f.keep_latest_n.isSome

/-- The prologue of one namespace iteration: collect unknown software
labels, fetch the repositories, record them in AllRepos (source lines
115-123). -/
def confPre (fetchR : String → List RepoRec) (metas : List SoftwareMeta)
    (st : St) (conf : RepoConf) : St :=
  let newUnknown :=
    conf.software.foldl
      (fun u s => if (smFind metas s).isSome then u else insertNew u s)
      st.unknown_software
  let st1 := {st with unknown_software := newUnknown}
  let repo_names := (fetchR conf.ns).map RepoRec.name
  {st1 with
    events := st1.events ++ [.fetchRepos conf.ns],
    all_repos_output := updAssoc st1.all_repos_output conf.ns repo_names}

/-- The body of the outer namespace loop (source lines 111-135). -/
def procConf (fetchR : String → List RepoRec) (fetchT : String → String → List Tag)
    (metas : List SoftwareMeta) (st : St) (conf : RepoConf) : Except (St × PyErr) St :=
  let repo_names := (fetchR conf.ns).map RepoRec.name
  let st2 := confPre fetchR metas st conf
  match (if (repoFiltersOf conf).isEmpty then Except.ok repo_names
      else filter_names repo_names (repoFiltersOf conf)) with
  | .error e => .error (st2, e)
  | .ok filtered_repo_names =>
    foldlE (procRepo fetchT (tagFiltersOf conf) conf.software conf.ns) st2
      filtered_repo_names

def repoKeyLe (cfg : Config) (a b : String) : Prop :=
  repoOrderScan (software_sortorder cfg.software) a cfg.repositories ≤
    repoOrderScan (software_sortorder cfg.software) b cfg.repositories

instance (cfg : Config) : DecidableRel (repoKeyLe cfg) := fun a b =>
  decidable_of_iff (repoOrderScan (software_sortorder cfg.software) a cfg.repositories ≤
    repoOrderScan (software_sortorder cfg.software) b cfg.repositories) Iff.rfl

def swLe (cfg : Config) (a b : String) : Prop :=
  software_sortorder cfg.software a ≤ software_sortorder cfg.software b

instance (cfg : Config) : DecidableRel (swLe cfg) := fun a b =>
  decidable_of_iff (software_sortorder cfg.software a ≤
    software_sortorder cfg.software b) Iff.rfl

/-- The output documents and the observable trace of a completed run. -/
structure MainOut where
  allowed_sorted : List (String × List String)
  all_repos : List (String × List String)
  allowed_by_software : List (String × String × List (String × List String))
  unknown : List String
  events : List Event
deriving DecidableEq, Repr

/-- The embedding of main (source lines 100-174). -/
def mainE (cfg : Config) (fetchR : String → List RepoRec)
    (fetchT : String → String → List Tag) (allowedPath allPath : String) :
    Except (St × PyErr) MainOut :=
  match foldlE (procConf fetchR fetchT cfg.software) {} cfg.repositories with
  | .error e => .error e
  | .ok st =>
    let sorted_repos := List.insertionSort (repoKeyLe cfg) (st.output.map Prod.fst)
    let allowed_sorted := sorted_repos.map fun k => (k, (assocFind st.output k).getD [])
    let sorted_software :=
      List.insertionSort (swLe cfg) (st.software_output.map Prod.fst)
    let allowed_by_software := sorted_software.map fun s =>
      (s, software_desc cfg.software s, (assocFind st.software_output s).getD [])
    .ok {
      allowed_sorted := allowed_sorted,
      all_repos := st.all_repos_output,
      allowed_by_software := allowed_by_software,
      unknown := st.unknown_software,
      events := st.events ++
        [.writeFile allowedPath, .writeFile allPath,
         .writeFile "allowed_repos_by_software.yaml"] ++
        st.unknown_software.map .diag }

/-! ### Association-list lemmas -/

theorem assocFind_updAssoc_self {A : Type} (l : List (String × A)) (k : String) (v : A) :
    assocFind (updAssoc l k v) k = some v := by
  induction l with
  | nil => simp [updAssoc, assocFind]
  | cons e rest ih =>
    obtain ⟨k2, v2⟩ := e
    by_cases h : k2 = k
    · simp [updAssoc, h, assocFind]
    · simp only [updAssoc, if_neg h, assocFind]
      exact ih

theorem assocFind_updAssoc_ne {A : Type} {l : List (String × A)} {k k2 : String} {v : A}
    (h : k2 ≠ k) : assocFind (updAssoc l k v) k2 = assocFind l k2 := by
  induction l with
  | nil =>
    simp only [updAssoc, assocFind]
    rw [if_neg (fun hh => h hh.symm)]
  | cons e rest ih =>
    obtain ⟨k3, v3⟩ := e
    by_cases h3 : k3 = k
    · subst h3
      simp only [updAssoc, if_pos rfl, assocFind]
      rw [if_neg (fun hh => h hh.symm), if_neg (fun hh => h hh.symm)]
    · simp only [updAssoc, if_neg h3, assocFind]
      by_cases h4 : k3 = k2
      · rw [if_pos h4, if_pos h4]
      · rw [if_neg h4, if_neg h4]
        exact ih

theorem assocFind_updAssoc_isSome {A : Type} {l : List (String × A)} {k k2 : String} {v : A}
    (h : (assocFind l k2).isSome = true) :
    (assocFind (updAssoc l k v) k2).isSome = true := by
  by_cases hk : k2 = k
  · subst hk
    rw [assocFind_updAssoc_self]
    rfl
  · rw [assocFind_updAssoc_ne hk]
    exact h

theorem mem_updAssoc {A : Type} {l : List (String × A)} {k k2 : String} {v v2 : A}
    (h : (k2, v2) ∈ updAssoc l k v) : (k2 = k ∧ v2 = v) ∨ (k2, v2) ∈ l := by
  induction l with
  | nil =>
    simp only [updAssoc] at h
    rcases List.mem_singleton.mp h with h2
    exact Or.inl ⟨congrArg Prod.fst h2, congrArg Prod.snd h2⟩
  | cons e rest ih =>
    obtain ⟨k3, v3⟩ := e
    by_cases h3 : k3 = k
    · simp only [updAssoc, if_pos h3] at h
      rcases List.mem_cons.mp h with h4 | h4
      · exact Or.inl ⟨congrArg Prod.fst h4, congrArg Prod.snd h4⟩
      · exact Or.inr (List.mem_cons_of_mem _ h4)
    · simp only [updAssoc, if_neg h3] at h
      rcases List.mem_cons.mp h with h4 | h4
      · exact Or.inr (h4 ▸ List.mem_cons_self _ _)
      · rcases ih h4 with h5 | h5
        · exact Or.inl h5
        · exact Or.inr (List.mem_cons_of_mem _ h5)

theorem assocFind_mem {A : Type} {l : List (String × A)} {k : String} {v : A}
    (h : assocFind l k = some v) : (k, v) ∈ l := by
  induction l with
  | nil => exact nomatch h
  | cons e rest ih =>
    obtain ⟨k2, v2⟩ := e
    by_cases h2 : k2 = k
    · subst h2
      rw [assocFind, if_pos rfl] at h
      cases h
      exact List.mem_cons_self _ _
    · rw [assocFind, if_neg h2] at h
      exact List.mem_cons_of_mem _ (ih h)

theorem assocFind_isSome_iff_mem_keys {A : Type} (l : List (String × A)) (k : String) :
    (assocFind l k).isSome = true ↔ k ∈ l.map Prod.fst := by
  induction l with
  | nil => simp [assocFind]
  | cons e rest ih =>
    obtain ⟨k2, v2⟩ := e
    by_cases h2 : k2 = k
    · subst h2
      simp [assocFind]
    · rw [assocFind, if_neg h2]
      simp only [List.map, List.mem_cons]
      rw [ih]
      constructor
      · intro h
        exact Or.inr h
      · intro h
        rcases h with h | h
        · exact absurd h.symm h2
        · exact h

theorem assocFind_append_none {A : Type} {l : List (String × A)} {k : String}
    (h : assocFind l k = none) (v : A) :
    assocFind (l ++ [(k, v)]) k = some v := by
  induction l with
  | nil => simp [assocFind]
  | cons e rest ih =>
    obtain ⟨k2, v2⟩ := e
    by_cases h2 : k2 = k
    · rw [assocFind, if_pos h2] at h
      exact nomatch h
    · rw [assocFind, if_neg h2] at h
      rw [List.cons_append, assocFind, if_neg h2]
      exact ih h

theorem assocFind_append_ne {A : Type} (l : List (String × A)) {k k2 : String}
    (h : k2 ≠ k) (v : A) : assocFind (l ++ [(k, v)]) k2 = assocFind l k2 := by
  induction l with
  | nil =>
    simp only [List.nil_append, assocFind]
    rw [if_neg (fun hh => h hh.symm)]
  | cons e rest ih =>
    obtain ⟨k3, v3⟩ := e
    by_cases h3 : k3 = k2
    · rw [List.cons_append, assocFind, if_pos h3, assocFind, if_pos h3]
    · rw [List.cons_append, assocFind, if_neg h3, assocFind, if_neg h3]
      exact ih

/-! ### updAssoc2 lemmas -/

theorem updAssoc2_self (l : List (String × List (String × List String)))
    (s k : String) (v : List String) :
    ∃ inner, assocFind (updAssoc2 l s k v) s = some inner ∧
      assocFind inner k = some v := by
  unfold updAssoc2
  cases hf : assocFind l s with
  | some inner =>
    exact ⟨updAssoc inner k v, assocFind_updAssoc_self l s _, assocFind_updAssoc_self inner k v⟩
  | none =>
    refine ⟨[(k, v)], assocFind_append_none hf _, ?_⟩
    rw [assocFind, if_pos rfl]

theorem updAssoc2_ne {l : List (String × List (String × List String))}
    {s s2 : String} (h : s2 ≠ s) (k : String) (v : List String) :
    assocFind (updAssoc2 l s k v) s2 = assocFind l s2 := by
  unfold updAssoc2
  cases hf : assocFind l s with
  | some inner => exact assocFind_updAssoc_ne h
  | none => exact assocFind_append_ne l h _

/-- Presence of a grouped entry is preserved by any further group
assignment. -/
theorem updAssoc2_pres {l : List (String × List (String × List String))}
    {s2 k2 : String} {inner : List (String × List String)}
    (hf : assocFind l s2 = some inner) (hk : (assocFind inner k2).isSome = true)
    (s k : String) (v : List String) :
    ∃ inner2, assocFind (updAssoc2 l s k v) s2 = some inner2 ∧
      (assocFind inner2 k2).isSome = true := by
  by_cases hs : s2 = s
  · subst hs
    unfold updAssoc2
    rw [hf]
    refine ⟨updAssoc inner k v, assocFind_updAssoc_self l s2 _, ?_⟩
    exact assocFind_updAssoc_isSome hk
  · rw [updAssoc2_ne hs]
    exact ⟨inner, hf, hk⟩

/-! ### insertNew lemmas -/

theorem insertNew_mem_self (l : List String) (s : String) : s ∈ insertNew l s := by
  unfold insertNew
  by_cases h : l.contains s
  · rw [if_pos h]
    exact List.mem_of_elem_eq_true h
  · rw [if_neg h]
    exact List.mem_append_right l (List.mem_singleton.mpr rfl)

theorem insertNew_mem_mono {l : List String} {u : String} (h : u ∈ l) (s : String) :
    u ∈ insertNew l s := by
  unfold insertNew
  by_cases h2 : l.contains s
  · rw [if_pos h2]
    exact h
  · rw [if_neg h2]
    exact List.mem_append_left _ h

theorem insertNew_nodup {l : List String} (h : l.Nodup) (s : String) :
    (insertNew l s).Nodup := by
  unfold insertNew
  by_cases h2 : l.contains s
  · rw [if_pos h2]
    exact h
  · rw [if_neg h2]
    refine List.Nodup.append h (List.nodup_singleton s) ?_
    intro a ha hb
    rw [List.mem_singleton] at hb
    subst hb
    exact h2 (List.elem_eq_true_of_mem ha)

/-! ### foldlE lemmas -/

theorem foldlE_cons {σ α : Type} (f : σ → α → Except (σ × PyErr) σ)
    (st : σ) (a : α) (as : List α) :
    foldlE f st (a :: as) =
      (match f st a with
        | Except.error e => Except.error e
        | Except.ok m => foldlE f m as) := rfl

theorem foldlE_append {σ α : Type} (f : σ → α → Except (σ × PyErr) σ)
    (st : σ) (l1 l2 : List α) :
    foldlE f st (l1 ++ l2) =
      (match foldlE f st l1 with
        | .error e => .error e
        | .ok m => foldlE f m l2) := by
  induction l1 generalizing st with
  | nil => cases foldlE f st l2 <;> rfl
  | cons a as ih =>
    rw [List.cons_append, foldlE_cons, foldlE_cons]
    cases hf : f st a with
    | error e => rfl
    | ok st2 => exact ih st2

/-- Lifting an invariant preserved by every successful step through the
fold. -/
theorem foldlE_pres {σ α : Type} (P : σ → Prop) (f : σ → α → Except (σ × PyErr) σ)
    (l : List α)
    (hstep : ∀ st a st2, a ∈ l → f st a = .ok st2 → P st → P st2) :
    ∀ st st2, foldlE f st l = .ok st2 → P st → P st2 := by
  induction l with
  | nil =>
    intro st st2 h hp
    cases h
    exact hp
  | cons a as ih =>
    intro st st2 h hp
    rw [show foldlE f st (a :: as) = (match f st a with
      | Except.error e => Except.error e
      | Except.ok m => foldlE f m as) from rfl] at h
    cases hf : f st a with
    | error e => rw [hf] at h; exact nomatch h
    | ok m =>
      rw [hf] at h
      refine ih (fun s3 b s4 hb => hstep s3 b s4 (List.mem_cons_of_mem a hb)) m st2 h
        (hstep st a m (List.mem_cons_self a as) hf hp)

/-- An invariant established by the step at some list element and preserved
by every later successful step holds of the fold result. -/
theorem foldlE_mem {σ α : Type} (P : σ → Prop) (f : σ → α → Except (σ × PyErr) σ)
    (l : List α) (a : α) (ha : a ∈ l)
    (hstep : ∀ st b st2, b ∈ l → f st b = .ok st2 → P st → P st2)
    (hest : ∀ st st2, f st a = .ok st2 → P st2) :
    ∀ st st2, foldlE f st l = .ok st2 → P st2 := by
  induction l with
  | nil => exact absurd ha (List.not_mem_nil a)
  | cons b bs ih =>
    intro st st2 h
    rw [show foldlE f st (b :: bs) = (match f st b with
      | Except.error e => Except.error e
      | Except.ok m => foldlE f m bs) from rfl] at h
    cases hf : f st b with
    | error e => rw [hf] at h; exact nomatch h
    | ok m =>
      rw [hf] at h
      rcases List.mem_cons.mp ha with hab | hab
      · subst hab
        exact foldlE_pres P f bs
          (fun s3 c s4 hc => hstep s3 c s4 (List.mem_cons_of_mem a hc)) m st2 h
          (hest st m hf)
      · exact ih hab (fun s3 c s4 hc => hstep s3 c s4 (List.mem_cons_of_mem b hc)) m st2 h

/-! ### Reduction equations for the main loop bodies -/

theorem ifEmpty_filter_tags (tags : List Tag) (tf : List RuleDict) :
    (if tf.isEmpty then Except.ok tags else filter_tags tags tf) =
      filter_tags tags tf := by
  cases tf with
  | nil => rfl
  | cons r rs => rfl

theorem ifEmpty_filter_names (names : List String) (rf : List RuleDict) :
    (if rf.isEmpty then Except.ok names else filter_names names rf) =
      filter_names names rf := by
  cases rf with
  | nil => rfl
  | cons r rs => rfl

theorem procRepo_eq (fetchT : String → String → List Tag) (tf : List RuleDict)
    (softlist : List String) (ns : String) (st : St) (repository : String) :
    procRepo fetchT tf softlist ns st repository =
      (match filter_tags (fetchT ns repository) tf with
        | Except.error e =>
          Except.error ({st with events := st.events ++ [.fetchTagsEv ns repository]}, e)
        | Except.ok ftags =>
          Except.ok (repoApply {st with events := st.events ++ [.fetchTagsEv ns repository]}
            ns repository softlist (finalTagSort (ftags.map Tag.name)))) := by
  simp only [procRepo]
  rw [ifEmpty_filter_tags]

theorem procConf_eq (fetchR : String → List RepoRec) (fetchT : String → String → List Tag)
    (metas : List SoftwareMeta) (st : St) (conf : RepoConf) :
    procConf fetchR fetchT metas st conf =
      (match filter_names ((fetchR conf.ns).map RepoRec.name) (repoFiltersOf conf) with
        | Except.error e => Except.error (confPre fetchR metas st conf, e)
        | Except.ok filtered_repo_names =>
          foldlE (procRepo fetchT (tagFiltersOf conf) conf.software conf.ns)
            (confPre fetchR metas st conf) filtered_repo_names) := by
  simp only [procConf]
  rw [ifEmpty_filter_names]

theorem mainE_ok {cfg : Config} {fetchR : String → List RepoRec}
    {fetchT : String → String → List Tag} {pa pb : String} {out : MainOut}
    (h : mainE cfg fetchR fetchT pa pb = .ok out) :
    ∃ st, foldlE (procConf fetchR fetchT cfg.software) {} cfg.repositories = .ok st ∧
      out.allowed_sorted =
        (List.insertionSort (repoKeyLe cfg) (st.output.map Prod.fst)).map
          (fun k => (k, (assocFind st.output k).getD [])) ∧
      out.all_repos = st.all_repos_output ∧
      out.allowed_by_software =
        (List.insertionSort (swLe cfg) (st.software_output.map Prod.fst)).map
          (fun s => (s, software_desc cfg.software s,
            (assocFind st.software_output s).getD [])) ∧
      out.unknown = st.unknown_software ∧
      out.events = st.events ++
        [.writeFile pa, .writeFile pb, .writeFile "allowed_repos_by_software.yaml"] ++
        st.unknown_software.map .diag := by
  unfold mainE at h
  cases hst : foldlE (procConf fetchR fetchT cfg.software) {} cfg.repositories with
  | error e =>
    rw [hst] at h
    exact nomatch h
  | ok st =>
    rw [hst] at h
    simp only [] at h
    cases h
    exact ⟨st, rfl, rfl, rfl, rfl, rfl, rfl⟩

theorem procConf_ok_inv {fetchR : String → List RepoRec}
    {fetchT : String → String → List Tag} {metas : List SoftwareMeta}
    {st : St} {conf : RepoConf} {st2 : St}
    (h : procConf fetchR fetchT metas st conf = .ok st2) :
    ∃ survivors,
      filter_names ((fetchR conf.ns).map RepoRec.name) (repoFiltersOf conf) =
        .ok survivors ∧
      foldlE (procRepo fetchT (tagFiltersOf conf) conf.software conf.ns)
        (confPre fetchR metas st conf) survivors = .ok st2 := by
  rw [procConf_eq] at h
  cases hf : filter_names ((fetchR conf.ns).map RepoRec.name) (repoFiltersOf conf) with
  | error e => rw [hf] at h; exact nomatch h
  | ok sur =>
    rw [hf] at h
    exact ⟨sur, rfl, h⟩

theorem procRepo_ok_inv {fetchT : String → String → List Tag} {tf : List RuleDict}
    {sl : List String} {ns : String} {st : St} {repo : String} {st2 : St}
    (h : procRepo fetchT tf sl ns st repo = .ok st2) :
    ∃ ftags, filter_tags (fetchT ns repo) tf = .ok ftags ∧
      st2 = repoApply {st with events := st.events ++ [.fetchTagsEv ns repo]} ns repo sl
        (finalTagSort (ftags.map Tag.name)) := by
  rw [procRepo_eq] at h
  cases hf : filter_tags (fetchT ns repo) tf with
  | error e => rw [hf] at h; exact nomatch h
  | ok ftags =>
    rw [hf] at h
    cases h
    exact ⟨ftags, rfl, rfl⟩

theorem repoApply_output (st1 : St) (ns repo : String) (sl : List String)
    (v : List String) :
    (repoApply st1 ns repo sl v).output = updAssoc st1.output (ns ++ "/" ++ repo) v := rfl

theorem repoApply_software (st1 : St) (ns repo : String) (sl : List String)
    (v : List String) :
    (repoApply st1 ns repo sl v).software_output =
      sl.foldl (fun so s => updAssoc2 so s (ns ++ "/" ++ repo) v) st1.software_output := rfl

/-- The inner repository loop never touches AllRepos or the unknown-software
set. -/
theorem foldlE_procRepo_fixed {fetchT : String → String → List Tag}
    {tf : List RuleDict} {sl : List String} {ns : String} {st : St}
    {l : List String} {st2 : St}
    (h : foldlE (procRepo fetchT tf sl ns) st l = .ok st2) :
    st2.all_repos_output = st.all_repos_output ∧
    st2.unknown_software = st.unknown_software := by
  refine foldlE_pres
    (fun s => s.all_repos_output = st.all_repos_output ∧
      s.unknown_software = st.unknown_software)
    (procRepo fetchT tf sl ns) l ?_ st st2 h ⟨rfl, rfl⟩
  intro s a s2 ha hstep hp
  obtain ⟨ftags, hft, hs2⟩ := procRepo_ok_inv hstep
  subst hs2
  exact hp

/-! ### C8: AllRepos records the full fetched repository list per namespace -/

theorem procConf_pres_allrepos {fetchR : String → List RepoRec}
    {fetchT : String → String → List Tag} {metas : List SoftwareMeta}
    {k : String} {st : St} {conf : RepoConf} {st2 : St}
    (h : procConf fetchR fetchT metas st conf = .ok st2)
    (hp : assocFind st.all_repos_output k = some ((fetchR k).map RepoRec.name)) :
    assocFind st2.all_repos_output k = some ((fetchR k).map RepoRec.name) := by
  obtain ⟨sur, hfn, hfold⟩ := procConf_ok_inv h
  rw [(foldlE_procRepo_fixed hfold).1]
  show assocFind (updAssoc st.all_repos_output conf.ns ((fetchR conf.ns).map RepoRec.name)) k =
    some ((fetchR k).map RepoRec.name)
  by_cases hk : k = conf.ns
  · subst hk
    rw [assocFind_updAssoc_self]
  · rw [assocFind_updAssoc_ne hk]
    exact hp

theorem procConf_est_allrepos {fetchR : String → List RepoRec}
    {fetchT : String → String → List Tag} {metas : List SoftwareMeta}
    {st : St} {conf : RepoConf} {st2 : St}
    (h : procConf fetchR fetchT metas st conf = .ok st2) :
    assocFind st2.all_repos_output conf.ns = some ((fetchR conf.ns).map RepoRec.name) := by
  obtain ⟨sur, hfn, hfold⟩ := procConf_ok_inv h
  rw [(foldlE_procRepo_fixed hfold).1]
  show assocFind (updAssoc st.all_repos_output conf.ns ((fetchR conf.ns).map RepoRec.name))
    conf.ns = some ((fetchR conf.ns).map RepoRec.name)
  rw [assocFind_updAssoc_self]

/-- C8: for every configured namespace, the AllRepos document records, under
that namespace, exactly the full unfiltered list of repository names the
registry returned, so every returned name is recorded there regardless of
any later name or tag filtering. -/
theorem C8_all_repos_unfiltered (cfg : Config) (fetchR : String → List RepoRec)
    (fetchT : String → String → List Tag) (pa pb : String) (out : MainOut)
    (h : mainE cfg fetchR fetchT pa pb = .ok out)
    (conf : RepoConf) (hc : conf ∈ cfg.repositories) :
    assocFind out.all_repos conf.ns = some ((fetchR conf.ns).map RepoRec.name) ∧
    ∀ rec ∈ fetchR conf.ns, ∃ l,
      assocFind out.all_repos conf.ns = some l ∧ rec.name ∈ l := by
  obtain ⟨st, hst, hallow, hall, hbysw, hunk, hev⟩ := mainE_ok h
  have hfind : assocFind st.all_repos_output conf.ns =
      some ((fetchR conf.ns).map RepoRec.name) := by
    refine foldlE_mem
      (fun s => assocFind s.all_repos_output conf.ns =
        some ((fetchR conf.ns).map RepoRec.name))
      (procConf fetchR fetchT cfg.software) cfg.repositories conf hc
      ?_ ?_ {} st hst
    · intro s b s2 hb hstep hp
      exact procConf_pres_allrepos hstep hp
    · intro s s2 hstep
      exact procConf_est_allrepos hstep
  rw [hall]
  refine ⟨hfind, ?_⟩
  intro rec hrec
  exact ⟨(fetchR conf.ns).map RepoRec.name, hfind, List.mem_map_of_mem RepoRec.name hrec⟩

/-- Projection of an Except value, used by the concrete run witnesses. -/
def exOk {E A : Type} : Except E A → Option A
  | .ok a => some a
  | .error _ => none

def c8conf : RepoConf := {ns := "acme"}

def c8cfg : Config := {repositories := [c8conf]}

def c8fR : String → List RepoRec := fun ns => if ns = "acme" then [⟨"app"⟩, ⟨"lib"⟩] else []

def c8fT : String → String → List Tag := fun _ _ => []

theorem C8_all_repos_unfiltered_witness :
    ∃ out, mainE c8cfg c8fR c8fT "allowed.yaml" "all.yaml" = .ok out ∧
      assocFind out.all_repos "acme" = some ["app", "lib"] := by
  cases hm : mainE c8cfg c8fR c8fT "allowed.yaml" "all.yaml" with
  | error e =>
    have hok : (exOk (mainE c8cfg c8fR c8fT "allowed.yaml" "all.yaml")).isSome = true := by
      decide
    rw [hm] at hok
    exact nomatch hok
  | ok out =>
    refine ⟨out, rfl, ?_⟩
    exact (C8_all_repos_unfiltered c8cfg c8fR c8fT "allowed.yaml" "all.yaml" out hm c8conf
      (List.mem_singleton.mpr rfl)).1

/-! ### C7: the final per-repository ordering -/

theorem finalTagSort_perm (l : List String) : List.Perm (finalTagSort l) l :=
  List.perm_insertionSort natDescLe l

theorem finalTagSort_sorted (l : List String) : List.Sorted natDescLe (finalTagSort l) :=
  List.sorted_insertionSort natDescLe l

theorem finalTagSort_idem (l : List String) :
    finalTagSort (finalTagSort l) = finalTagSort l :=
  (finalTagSort_sorted l).insertionSort_eq

/-- What an AllowedRepos entry is: some configured entry produced it, its
value is the final descending natural sort of the tag names the tag-filter
pipeline left, applied after and independently of the pipeline. -/
def allowedEntryInv (cfg : Config) (fetchT : String → String → List Tag)
    (k : String) (v : List String) : Prop :=
  ∃ conf, conf ∈ cfg.repositories ∧ ∃ repo ftags,
    k = conf.ns ++ "/" ++ repo ∧
    filter_tags (fetchT conf.ns repo) (tagFiltersOf conf) = .ok ftags ∧
    v = finalTagSort (ftags.map Tag.name)

theorem procRepo_pres_inv {cfg : Config} {fetchT : String → String → List Tag}
    {conf : RepoConf} {st : St} {repo : String} {st2 : St}
    (hconf : conf ∈ cfg.repositories)
    (h : procRepo fetchT (tagFiltersOf conf) conf.software conf.ns st repo = .ok st2)
    (hp : ∀ k v, assocFind st.output k = some v → allowedEntryInv cfg fetchT k v) :
    ∀ k v, assocFind st2.output k = some v → allowedEntryInv cfg fetchT k v := by
  obtain ⟨ftags, hft, hs2⟩ := procRepo_ok_inv h
  subst hs2
  intro k v hkv
  rw [repoApply_output] at hkv
  by_cases hk : k = conf.ns ++ "/" ++ repo
  · subst hk
    rw [assocFind_updAssoc_self] at hkv
    cases hkv
    exact ⟨conf, hconf, repo, ftags, rfl, hft, rfl⟩
  · rw [assocFind_updAssoc_ne hk] at hkv
    exact hp k v hkv

theorem procConf_pres_inv {cfg : Config} {fetchR : String → List RepoRec}
    {fetchT : String → String → List Tag} {st : St} {conf : RepoConf} {st2 : St}
    (hconf : conf ∈ cfg.repositories)
    (h : procConf fetchR fetchT cfg.software st conf = .ok st2)
    (hp : ∀ k v, assocFind st.output k = some v → allowedEntryInv cfg fetchT k v) :
    ∀ k v, assocFind st2.output k = some v → allowedEntryInv cfg fetchT k v := by
  obtain ⟨sur, hfn, hfold⟩ := procConf_ok_inv h
  refine foldlE_pres
    (fun s => ∀ k v, assocFind s.output k = some v → allowedEntryInv cfg fetchT k v)
    _ sur ?_ _ _ hfold ?_
  · intro s b s2 hb hstep hps
    exact procRepo_pres_inv hconf hstep hps
  · exact hp

/-- C7: every AllowedRepos entry is the final sort, by Natural Order Key
descending, of the tag names the filter pipeline produced for it, applied
unconditionally after the pipeline; the final sort permutes its input,
orders it descending, and is idempotent. -/
theorem C7_final_descending_sort (cfg : Config) (fetchR : String → List RepoRec)
    (fetchT : String → String → List Tag) (pa pb : String) (out : MainOut)
    (h : mainE cfg fetchR fetchT pa pb = .ok out) :
    (∀ k v, (k, v) ∈ out.allowed_sorted →
      allowedEntryInv cfg fetchT k v ∧ finalTagSort v = v) ∧
    (∀ l, List.Perm (finalTagSort l) l) ∧
    (∀ l, List.Sorted natDescLe (finalTagSort l)) ∧
    (∀ l, finalTagSort (finalTagSort l) = finalTagSort l) := by
  obtain ⟨st, hst, hallow, hall, hbysw, hunk, hev⟩ := mainE_ok h
  have hinv : ∀ k v, assocFind st.output k = some v → allowedEntryInv cfg fetchT k v := by
    refine foldlE_pres
      (fun s => ∀ k v, assocFind s.output k = some v → allowedEntryInv cfg fetchT k v)
      (procConf fetchR fetchT cfg.software) cfg.repositories ?_ {} st hst ?_
    · intro s b s2 hb hstep hps
      exact procConf_pres_inv hb hstep hps
    · intro k v hkv
      exact nomatch hkv
  refine ⟨?_, finalTagSort_perm, finalTagSort_sorted, finalTagSort_idem⟩
  intro k v hkv
  rw [hallow] at hkv
  obtain ⟨k0, hk0mem, hk0eq⟩ := List.mem_map.mp hkv
  have hk : k0 = k := congrArg Prod.fst hk0eq
  subst hk
  have hv : v = (assocFind st.output k0).getD [] := (congrArg Prod.snd hk0eq).symm
  have hkeys : k0 ∈ st.output.map Prod.fst := by
    have := (List.mem_insertionSort (repoKeyLe cfg)).mp hk0mem
    exact this
  obtain ⟨v0, hv0⟩ := Option.isSome_iff_exists.mp
    ((assocFind_isSome_iff_mem_keys st.output k0).mpr hkeys)
  have hvv0 : v = v0 := by
    rw [hv, hv0]
    rfl
  subst hvv0
  have hai := hinv k0 v hv0
  refine ⟨hai, ?_⟩
  obtain ⟨conf, hconf, repo, ftags, hkeq, hfteq, hveq⟩ := hai
  rw [hveq, finalTagSort_idem]

def c7conf : RepoConf := {ns := "acme"}

def c7cfg : Config := {repositories := [c7conf]}

def c7fR : String → List RepoRec := fun ns => if ns = "acme" then [⟨"app"⟩] else []

def c7fT : String → String → List Tag := fun ns r =>
  if ns = "acme" && r = "app" then [⟨"v1", 0⟩, ⟨"v10", 1⟩, ⟨"v2", 2⟩] else []

theorem C7_final_descending_sort_witness :
    ∃ out, mainE c7cfg c7fR c7fT "allowed.yaml" "all.yaml" = .ok out ∧
      ("acme/app", ["v10", "v2", "v1"]) ∈ out.allowed_sorted ∧
      finalTagSort ["v10", "v2", "v1"] = ["v10", "v2", "v1"] := by
  cases hm : mainE c7cfg c7fR c7fT "allowed.yaml" "all.yaml" with
  | error e =>
    have hok : (exOk (mainE c7cfg c7fR c7fT "allowed.yaml" "all.yaml")).isSome = true := by
      decide
    rw [hm] at hok
    exact nomatch hok
  | ok out =>
    have hmem : ("acme/app", ["v10", "v2", "v1"]) ∈ out.allowed_sorted := by
      have houtv : exOk (mainE c7cfg c7fR c7fT "allowed.yaml" "all.yaml") = some out := by
        rw [hm]
        rfl
      have hfst : ("acme/app", ["v10", "v2", "v1"]) ∈
          ((exOk (mainE c7cfg c7fR c7fT "allowed.yaml" "all.yaml")).getD
            ⟨[], [], [], [], []⟩).allowed_sorted := by decide
      rw [houtv] at hfst
      exact hfst
    refine ⟨out, rfl, hmem, ?_⟩
    exact ((C7_final_descending_sort c7cfg c7fR c7fT "allowed.yaml" "all.yaml" out hm).1
      "acme/app" ["v10", "v2", "v1"] hmem).2

/-! ### C2 support: the unknown-software set, the event trace, and presence
of entries in the three documents -/

theorem unkFoldl_mono {metas : List SoftwareMeta} {acc : List String} {u : String}
    (h : u ∈ acc) (sl : List String) :
    u ∈ sl.foldl (fun u2 s => if (smFind metas s).isSome then u2 else insertNew u2 s) acc := by
  induction sl generalizing acc with
  | nil => exact h
  | cons a rest ih =>
    show u ∈ rest.foldl _ (if (smFind metas a).isSome then acc else insertNew acc a)
    by_cases ha : (smFind metas a).isSome
    · rw [if_pos ha]
      exact ih h
    · rw [if_neg ha]
      exact ih (insertNew_mem_mono h a)

theorem unkFoldl_mem {metas : List SoftwareMeta} {sl : List String} {s : String}
    (hs : s ∈ sl) (hn : smFind metas s = none) (acc : List String) :
    s ∈ sl.foldl (fun u2 s2 => if (smFind metas s2).isSome then u2 else insertNew u2 s2) acc := by
  induction sl generalizing acc with
  | nil => exact absurd hs (List.not_mem_nil s)
  | cons a rest ih =>
    show s ∈ rest.foldl _ (if (smFind metas a).isSome then acc else insertNew acc a)
    rcases List.mem_cons.mp hs with h1 | h1
    · subst h1
      rw [if_neg (by rw [hn]; exact Bool.false_ne_true)]
      exact unkFoldl_mono (insertNew_mem_self acc s) rest
    · by_cases ha : (smFind metas a).isSome
      · rw [if_pos ha]
        exact ih h1 acc
      · rw [if_neg ha]
        exact ih h1 (insertNew acc a)

theorem unkFoldl_nodup {metas : List SoftwareMeta} {acc : List String}
    (h : acc.Nodup) (sl : List String) :
    (sl.foldl (fun u2 s => if (smFind metas s).isSome then u2 else insertNew u2 s) acc).Nodup := by
  induction sl generalizing acc with
  | nil => exact h
  | cons a rest ih =>
    show (rest.foldl (fun u2 s => if (smFind metas s).isSome then u2 else insertNew u2 s)
      (if (smFind metas a).isSome then acc else insertNew acc a)).Nodup
    by_cases ha : (smFind metas a).isSome
    · rw [if_pos ha]
      exact ih h
    · rw [if_neg ha]
      exact ih (insertNew_nodup h a)

theorem procConf_pres_unknown {fetchR : String → List RepoRec}
    {fetchT : String → String → List Tag} {metas : List SoftwareMeta}
    {st : St} {conf : RepoConf} {st2 : St} {u : String}
    (h : procConf fetchR fetchT metas st conf = .ok st2)
    (hp : u ∈ st.unknown_software) : u ∈ st2.unknown_software := by
  obtain ⟨sur, hfn, hfold⟩ := procConf_ok_inv h
  rw [(foldlE_procRepo_fixed hfold).2]
  exact unkFoldl_mono hp conf.software

theorem procConf_est_unknown {fetchR : String → List RepoRec}
    {fetchT : String → String → List Tag} {metas : List SoftwareMeta}
    {st : St} {conf : RepoConf} {st2 : St} {s : String}
    (h : procConf fetchR fetchT metas st conf = .ok st2)
    (hs : s ∈ conf.software) (hn : smFind metas s = none) :
    s ∈ st2.unknown_software := by
  obtain ⟨sur, hfn, hfold⟩ := procConf_ok_inv h
  rw [(foldlE_procRepo_fixed hfold).2]
  exact unkFoldl_mem hs hn st.unknown_software

theorem procConf_pres_nodup {fetchR : String → List RepoRec}
    {fetchT : String → String → List Tag} {metas : List SoftwareMeta}
    {st : St} {conf : RepoConf} {st2 : St}
    (h : procConf fetchR fetchT metas st conf = .ok st2)
    (hp : st.unknown_software.Nodup) : st2.unknown_software.Nodup := by
  obtain ⟨sur, hfn, hfold⟩ := procConf_ok_inv h
  rw [(foldlE_procRepo_fixed hfold).2]
  exact unkFoldl_nodup hp conf.software

/-- The loop records only fetch events; no diagnostic and no write appears
before the loop finishes. -/
def fetchOnlyEvents (st : St) : Prop :=
  ∀ e ∈ st.events, (∀ lbl, e ≠ Event.diag lbl) ∧ (∀ p, e ≠ Event.writeFile p)

theorem procRepo_pres_events {fetchT : String → String → List Tag} {tf : List RuleDict}
    {sl : List String} {ns : String} {st : St} {repo : String} {st2 : St}
    (h : procRepo fetchT tf sl ns st repo = .ok st2)
    (hp : fetchOnlyEvents st) : fetchOnlyEvents st2 := by
  obtain ⟨ftags, hft, hs2⟩ := procRepo_ok_inv h
  subst hs2
  intro e he
  rcases List.mem_append.mp he with h1 | h1
  · exact hp e h1
  · rw [List.mem_singleton.mp h1]
    exact ⟨fun lbl => Event.noConfusion, fun p => Event.noConfusion⟩

theorem procConf_pres_events {fetchR : String → List RepoRec}
    {fetchT : String → String → List Tag} {metas : List SoftwareMeta}
    {st : St} {conf : RepoConf} {st2 : St}
    (h : procConf fetchR fetchT metas st conf = .ok st2)
    (hp : fetchOnlyEvents st) : fetchOnlyEvents st2 := by
  obtain ⟨sur, hfn, hfold⟩ := procConf_ok_inv h
  refine foldlE_pres fetchOnlyEvents _ sur ?_ _ _ hfold ?_
  · intro s b s2 hb hstep hps
    exact procRepo_pres_events hstep hps
  · intro e he
    rcases List.mem_append.mp he with h1 | h1
    · exact hp e h1
    · rw [List.mem_singleton.mp h1]
      exact ⟨fun lbl => Event.noConfusion, fun p => Event.noConfusion⟩

theorem procRepo_pres_output {fetchT : String → String → List Tag} {tf : List RuleDict}
    {sl : List String} {ns : String} {st : St} {repo : String} {st2 : St} {key : String}
    (h : procRepo fetchT tf sl ns st repo = .ok st2)
    (hp : (assocFind st.output key).isSome = true) :
    (assocFind st2.output key).isSome = true := by
  obtain ⟨ftags, hft, hs2⟩ := procRepo_ok_inv h
  subst hs2
  rw [repoApply_output]
  exact assocFind_updAssoc_isSome hp

theorem procConf_pres_output {fetchR : String → List RepoRec}
    {fetchT : String → String → List Tag} {metas : List SoftwareMeta}
    {st : St} {conf : RepoConf} {st2 : St} {key : String}
    (h : procConf fetchR fetchT metas st conf = .ok st2)
    (hp : (assocFind st.output key).isSome = true) :
    (assocFind st2.output key).isSome = true := by
  obtain ⟨sur, hfn, hfold⟩ := procConf_ok_inv h
  refine foldlE_pres (fun s => (assocFind s.output key).isSome = true) _ sur ?_ _ _ hfold hp
  intro s b s2 hb hstep hps
  exact procRepo_pres_output hstep hps

theorem procConf_est_output {fetchR : String → List RepoRec}
    {fetchT : String → String → List Tag} {metas : List SoftwareMeta}
    {st : St} {conf : RepoConf} {st2 : St} {sur : List String} {repo : String}
    (h : procConf fetchR fetchT metas st conf = .ok st2)
    (hsur : filter_names ((fetchR conf.ns).map RepoRec.name) (repoFiltersOf conf) = .ok sur)
    (hrepo : repo ∈ sur) :
    (assocFind st2.output (conf.ns ++ "/" ++ repo)).isSome = true := by
  obtain ⟨sur2, hfn, hfold⟩ := procConf_ok_inv h
  have hss : sur2 = sur := by
    rw [hsur] at hfn
    cases hfn
    rfl
  subst hss
  refine foldlE_mem (fun s => (assocFind s.output (conf.ns ++ "/" ++ repo)).isSome = true)
    _ sur2 repo hrepo ?_ ?_ _ _ hfold
  · intro s b s2 hb hstep hps
    exact procRepo_pres_output hstep hps
  · intro s s2 hstep
    obtain ⟨ftags, hft, hs2⟩ := procRepo_ok_inv hstep
    subst hs2
    rw [repoApply_output, assocFind_updAssoc_self]
    rfl

theorem swFoldl_pres {so : List (String × List (String × List String))}
    {s2 k2 : String} {inner : List (String × List String)}
    (hf : assocFind so s2 = some inner) (hk : (assocFind inner k2).isSome = true)
    (sl : List String) (k : String) (v : List String) :
    ∃ inner2,
      assocFind (sl.foldl (fun so2 s => updAssoc2 so2 s k v) so) s2 = some inner2 ∧
      (assocFind inner2 k2).isSome = true := by
  induction sl generalizing so inner with
  | nil => exact ⟨inner, hf, hk⟩
  | cons a rest ih =>
    obtain ⟨innerA, hfA, hkA⟩ := updAssoc2_pres hf hk a k v
    exact ih hfA hkA

theorem swFoldl_mem {sl : List String} {s : String} (hs : s ∈ sl)
    (so : List (String × List (String × List String))) (k : String) (v : List String) :
    ∃ inner,
      assocFind (sl.foldl (fun so2 s2 => updAssoc2 so2 s2 k v) so) s = some inner ∧
      (assocFind inner k).isSome = true := by
  induction sl generalizing so with
  | nil => exact absurd hs (List.not_mem_nil s)
  | cons a rest ih =>
    rcases List.mem_cons.mp hs with h1 | h1
    · subst h1
      obtain ⟨inner, hfi, hki⟩ := updAssoc2_self so s k v
      exact swFoldl_pres hfi (by rw [hki]; rfl) rest k v
    · exact ih h1 (updAssoc2 so a k v)

theorem procRepo_pres_software {fetchT : String → String → List Tag} {tf : List RuleDict}
    {sl : List String} {ns : String} {st : St} {repo : String} {st2 : St}
    {s key : String} {inner : List (String × List String)}
    (h : procRepo fetchT tf sl ns st repo = .ok st2)
    (hf : assocFind st.software_output s = some inner)
    (hk : (assocFind inner key).isSome = true) :
    ∃ inner2, assocFind st2.software_output s = some inner2 ∧
      (assocFind inner2 key).isSome = true := by
  obtain ⟨ftags, hft, hs2⟩ := procRepo_ok_inv h
  subst hs2
  rw [repoApply_software]
  exact swFoldl_pres hf hk sl _ _

theorem procRepo_est_software {fetchT : String → String → List Tag} {tf : List RuleDict}
    {sl : List String} {ns : String} {st : St} {repo : String} {st2 : St} {s : String}
    (h : procRepo fetchT tf sl ns st repo = .ok st2) (hs : s ∈ sl) :
    ∃ inner, assocFind st2.software_output s = some inner ∧
      (assocFind inner (ns ++ "/" ++ repo)).isSome = true := by
  obtain ⟨ftags, hft, hs2⟩ := procRepo_ok_inv h
  subst hs2
  rw [repoApply_software]
  exact swFoldl_mem hs _ _ _

theorem procConf_pres_software {fetchR : String → List RepoRec}
    {fetchT : String → String → List Tag} {metas : List SoftwareMeta}
    {st : St} {conf : RepoConf} {st2 : St} {s key : String}
    (h : procConf fetchR fetchT metas st conf = .ok st2)
    (hp : ∃ inner, assocFind st.software_output s = some inner ∧
      (assocFind inner key).isSome = true) :
    ∃ inner2, assocFind st2.software_output s = some inner2 ∧
      (assocFind inner2 key).isSome = true := by
  obtain ⟨sur, hfn, hfold⟩ := procConf_ok_inv h
  refine foldlE_pres
    (fun st3 => ∃ inner2, assocFind st3.software_output s = some inner2 ∧
      (assocFind inner2 key).isSome = true) _ sur ?_ _ _ hfold hp
  intro s3 b s4 hb hstep hps
  obtain ⟨inner3, hf3, hk3⟩ := hps
  exact procRepo_pres_software hstep hf3 hk3

theorem procConf_est_software {fetchR : String → List RepoRec}
    {fetchT : String → String → List Tag} {metas : List SoftwareMeta}
    {st : St} {conf : RepoConf} {st2 : St} {sur : List String} {repo s : String}
    (h : procConf fetchR fetchT metas st conf = .ok st2)
    (hsur : filter_names ((fetchR conf.ns).map RepoRec.name) (repoFiltersOf conf) = .ok sur)
    (hrepo : repo ∈ sur) (hs : s ∈ conf.software) :
    ∃ inner, assocFind st2.software_output s = some inner ∧
      (assocFind inner (conf.ns ++ "/" ++ repo)).isSome = true := by
  obtain ⟨sur2, hfn, hfold⟩ := procConf_ok_inv h
  have hss : sur2 = sur := by
    rw [hsur] at hfn
    cases hfn
    rfl
  subst hss
  refine foldlE_mem
    (fun st3 => ∃ inner, assocFind st3.software_output s = some inner ∧
      (assocFind inner (conf.ns ++ "/" ++ repo)).isSome = true)
    _ sur2 repo hrepo ?_ ?_ _ _ hfold
  · intro s3 b s4 hb hstep hps
    obtain ⟨inner3, hf3, hk3⟩ := hps
    exact procRepo_pres_software hstep hf3 hk3
  · intro s3 s4 hstep
    exact procRepo_est_software hstep hs

/-- C2 (amended): a run with a repository referencing a software label
absent from the software section completes without aborting; the label is
collected and, after all three output files are written, exactly one
diagnostic per distinct unknown label is emitted; every repository of that
config entry that survives name filtering still appears in AllowedRepos —
and, contrary to the original claim, it is also grouped under the unknown
label in AllowedBySoftware. -/
theorem C2_unknown_software_amended (cfg : Config) (fetchR : String → List RepoRec)
    (fetchT : String → String → List Tag) (pa pb : String) (out : MainOut)
    (h : mainE cfg fetchR fetchT pa pb = .ok out)
    (conf : RepoConf) (hconf : conf ∈ cfg.repositories)
    (s : String) (hs : s ∈ conf.software) (hun : smFind cfg.software s = none) :
    s ∈ out.unknown ∧
    out.unknown.Nodup ∧
    (∃ evs, out.events = evs ++
        [.writeFile pa, .writeFile pb, .writeFile "allowed_repos_by_software.yaml"] ++
        out.unknown.map .diag ∧
      ∀ e ∈ evs, ∀ lbl, e ≠ Event.diag lbl) ∧
    (∀ survivors repo,
      filter_names ((fetchR conf.ns).map RepoRec.name) (repoFiltersOf conf) =
        .ok survivors →
      repo ∈ survivors →
      (∃ v, (conf.ns ++ "/" ++ repo, v) ∈ out.allowed_sorted) ∧
      (∃ desc grp, (s, desc, grp) ∈ out.allowed_by_software ∧
        (assocFind grp (conf.ns ++ "/" ++ repo)).isSome = true)) := by
  obtain ⟨st, hst, hallow, hall, hbysw, hunk, hev⟩ := mainE_ok h
  refine ⟨?_, ?_, ?_, ?_⟩
  · rw [hunk]
    exact foldlE_mem (fun s3 => s ∈ s3.unknown_software)
      (procConf fetchR fetchT cfg.software) cfg.repositories conf hconf
      (fun s3 b s4 hb hstep hps => procConf_pres_unknown hstep hps)
      (fun s3 s4 hstep => procConf_est_unknown hstep hs hun)
      {} st hst
  · rw [hunk]
    exact foldlE_pres (fun s3 => s3.unknown_software.Nodup)
      (procConf fetchR fetchT cfg.software) cfg.repositories
      (fun s3 b s4 hb hstep hps => procConf_pres_nodup hstep hps)
      {} st hst List.nodup_nil
  · refine ⟨st.events, ?_, ?_⟩
    · rw [hev, hunk]
    · have hfo : fetchOnlyEvents st :=
        foldlE_pres fetchOnlyEvents (procConf fetchR fetchT cfg.software) cfg.repositories
          (fun s3 b s4 hb hstep hps => procConf_pres_events hstep hps)
          {} st hst (fun e he => absurd he (List.not_mem_nil e))
      intro e he lbl
      exact (hfo e he).1 lbl
  · intro survivors repo hsur hrepo
    constructor
    · have hksome : (assocFind st.output (conf.ns ++ "/" ++ repo)).isSome = true :=
        foldlE_mem (fun s3 => (assocFind s3.output (conf.ns ++ "/" ++ repo)).isSome = true)
          (procConf fetchR fetchT cfg.software) cfg.repositories conf hconf
          (fun s3 b s4 hb hstep hps => procConf_pres_output hstep hps)
          (fun s3 s4 hstep => procConf_est_output hstep hsur hrepo)
          {} st hst
      refine ⟨(assocFind st.output (conf.ns ++ "/" ++ repo)).getD [], ?_⟩
      rw [hallow]
      refine List.mem_map.mpr ⟨conf.ns ++ "/" ++ repo, ?_, rfl⟩
      rw [List.mem_insertionSort]
      exact (assocFind_isSome_iff_mem_keys st.output (conf.ns ++ "/" ++ repo)).mp hksome
  
    · have hsw : ∃ inner, assocFind st.software_output s = some inner ∧
          (assocFind inner (conf.ns ++ "/" ++ repo)).isSome = true :=
        foldlE_mem (fun s3 => ∃ inner, assocFind s3.software_output s = some inner ∧
            (assocFind inner (conf.ns ++ "/" ++ repo)).isSome = true)
          (procConf fetchR fetchT cfg.software) cfg.repositories conf hconf
          (fun s3 b s4 hb hstep hps => procConf_pres_software hstep hps)
          (fun s3 s4 hstep => procConf_est_software hstep hsur hrepo hs)
          {} st hst
      obtain ⟨inner, hfi, hki⟩ := hsw
      refine ⟨software_desc cfg.software s, (assocFind st.software_output s).getD [], ?_, ?_⟩
      · rw [hbysw]
        refine List.mem_map.mpr ⟨s, ?_, rfl⟩
        rw [List.mem_insertionSort]
        exact (assocFind_isSome_iff_mem_keys st.software_output s).mp (by rw [hfi]; rfl)
      · rw [hfi]
        exact hki

def c2conf : RepoConf := {ns := "acme", software := ["extra"]}

def c2meta : SoftwareMeta := {name := "core", sort_order := some 1}

def c2cfg : Config := {repositories := [c2conf], software := [c2meta]}

def c2fR : String → List RepoRec := fun ns => if ns = "acme" then [⟨"app"⟩] else []

def c2fT : String → String → List Tag := fun ns r =>
  if ns = "acme" && r = "app" then [⟨"v1", 3⟩] else []

/-- C2 counterexample: the claim says the repository is excluded from the
AllowedBySoftware grouping for the unknown label; in this concrete run the
unknown label "extra" appears in the AllowedBySoftware document with the
repository grouped under it. -/
theorem C2_unknown_software_counterexample :
    ∃ out, mainE c2cfg c2fR c2fT "allowed.yaml" "all.yaml" = .ok out ∧
      ∃ grp, ("extra", "", grp) ∈ out.allowed_by_software ∧
        assocFind grp "acme/app" = some ["v1"] := by
  cases hm : mainE c2cfg c2fR c2fT "allowed.yaml" "all.yaml" with
  | error e =>
    have hok : (exOk (mainE c2cfg c2fR c2fT "allowed.yaml" "all.yaml")).isSome = true := by
      decide
    rw [hm] at hok
    exact nomatch hok
  | ok out =>
    refine ⟨out, rfl, [("acme/app", ["v1"])], ?_, by decide⟩
    have hfst : ("extra", "", [("acme/app", ["v1"])]) ∈
        ((exOk (mainE c2cfg c2fR c2fT "allowed.yaml" "all.yaml")).getD
          ⟨[], [], [], [], []⟩).allowed_by_software := by decide
    have houtv : exOk (mainE c2cfg c2fR c2fT "allowed.yaml" "all.yaml") = some out := by
      rw [hm]
      rfl
    rw [houtv] at hfst
    exact hfst

theorem C2_unknown_software_amended_witness :
    ∃ out, mainE c2cfg c2fR c2fT "allowed.yaml" "all.yaml" = .ok out ∧
      "extra" ∈ out.unknown ∧ out.unknown.Nodup ∧
      (∃ v, ("acme/app", v) ∈ out.allowed_sorted) := by
  cases hm : mainE c2cfg c2fR c2fT "allowed.yaml" "all.yaml" with
  | error e =>
    have hok : (exOk (mainE c2cfg c2fR c2fT "allowed.yaml" "all.yaml")).isSome = true := by
      decide
    rw [hm] at hok
    exact nomatch hok
  | ok out =>
    have h2 := C2_unknown_software_amended c2cfg c2fR c2fT "allowed.yaml" "all.yaml" out hm
      c2conf (List.mem_singleton.mpr rfl) "extra" (List.mem_singleton.mpr rfl) rfl
    refine ⟨out, rfl, h2.1, h2.2.1, ?_⟩
    exact (h2.2.2.2 ["app"] "app" rfl (List.mem_singleton.mpr rfl)).1

/-! ### C4: the AllowedRepos display order -/

/-- The order value the claim describes: the minimum sort order over the
software labels of all config entries whose namespace prefix-matches the
repository key (999 when there are none). -/
def claimMinOrder (soGet : String → Int) (cfg : List RepoConf) (key : String) : Int :=
  match (cfg.filter fun c => pyStartswith key c.ns).foldr
      (fun c acc => c.software ++ acc) [] with
  | [] => 999
  | l :: ls => (ls.map soGet).foldl min (soGet l)

/-- The order value the code computes, written directly: the labels of the
first config entry (in config order) whose namespace prefix-matches the key
and whose software list is nonempty decide the value; later matching entries
are never consulted. -/
def firstMatchOrder (soGet : String → Int) (cfg : List RepoConf) (key : String) : Int :=
  match cfg.find? (fun c => !c.software.isEmpty && pyStartswith key c.ns) with
  | none => 999
  | some c =>
    match c.software with
    | [] => 999
    | l :: ls => (ls.map soGet).foldl min (soGet l)

theorem if_lt_eq_min (x c : Int) : (if x < c then x else c) = min c x := by
  rw [min_def]
  split_ifs <;> omega

theorem confScan_eq (soGet : String → Int) (key : String) (conf : RepoConf) :
    confScan soGet key conf =
      (if pyStartswith key conf.ns then
        match conf.software with
        | [] => none
        | l :: ls => some ((ls.map soGet).foldl min (soGet l))
      else none) := by
  by_cases hsw : pyStartswith key conf.ns = true
  · rw [if_pos hsw]
    unfold confScan
    cases hc : conf.software with
    | nil => rfl
    | cons l ls =>
      have hgen : ∀ (ls2 : List String) (cur : Int),
          ls2.foldl
            (fun acc s =>
              if pyStartswith key conf.ns then
                match acc with
                | none => some (soGet s)
                | some c => some (if soGet s < c then soGet s else c)
              else acc)
            (some cur) = some ((ls2.map soGet).foldl min cur) := by
        intro ls2
        induction ls2 with
        | nil => intro cur; rfl
        | cons a rest ih =>
          intro cur
          show rest.foldl _
            (if pyStartswith key conf.ns then
              some (if soGet a < cur then soGet a else cur)
            else some cur) = _
          rw [if_pos hsw, if_lt_eq_min]
          exact ih (min cur (soGet a))
      show (l :: ls).foldl _ none = _
      show ls.foldl _
        (if pyStartswith key conf.ns then some (soGet l) else none) = _
      rw [if_pos hsw]
      exact hgen ls (soGet l)
  · rw [if_neg hsw]
    unfold confScan
    have hgen : ∀ (ls2 : List String),
        ls2.foldl
          (fun acc s =>
            if pyStartswith key conf.ns then
              match acc with
              | none => some (soGet s)
              | some c => some (if soGet s < c then soGet s else c)
            else acc)
          none = none := by
      intro ls2
      induction ls2 with
      | nil => rfl
      | cons a rest ih =>
        show rest.foldl _
          (if pyStartswith key conf.ns then some (soGet a) else none) = _
        rw [if_neg hsw]
        exact ih
    exact hgen conf.software

theorem repoOrderScan_eq_firstMatch (soGet : String → Int) (key : String) :
    ∀ cfg : List RepoConf, repoOrderScan soGet key cfg = firstMatchOrder soGet cfg key := by
  intro cfg
  induction cfg with
  | nil => rfl
  | cons conf rest ih =>
    show (match confScan soGet key conf with
      | some v => v
      | none => repoOrderScan soGet key rest) = _
    rw [confScan_eq]
    by_cases hsw : pyStartswith key conf.ns = true
    · rw [if_pos hsw]
      cases hc : conf.software with
      | nil =>
        unfold firstMatchOrder
        rw [List.find?_cons_of_neg _ (by simp [hc])]
        exact ih
      | cons l ls =>
        unfold firstMatchOrder
        rw [List.find?_cons_of_pos _ (by simp [hc, hsw])]
        simp [hc]
    · rw [if_neg hsw]
      unfold firstMatchOrder
      rw [List.find?_cons_of_neg _ (by simp [hsw])]
      exact ih

instance (cfg : Config) : IsTotal String (repoKeyLe cfg) :=
  ⟨fun a b => Int.le_total _ _⟩

instance (cfg : Config) : IsTrans String (repoKeyLe cfg) :=
  ⟨fun a b c hab hbc => le_trans hab hbc⟩

theorem orderedInsert_filter_key {α : Type} (f : α → Int) (r : α → α → Prop)
    [DecidableRel r] (hr : ∀ a b, r a b ↔ f a ≤ f b) (v : Int) (x : α) :
    ∀ l : List α,
      (List.orderedInsert r x l).filter (fun a => decide (f a = v)) =
        if f x = v then x :: l.filter (fun a => decide (f a = v))
        else l.filter (fun a => decide (f a = v)) := by
  intro l
  induction l with
  | nil =>
    by_cases hv : f x = v
    · rw [if_pos hv]
      simp [List.orderedInsert, List.filter, hv]
    · rw [if_neg hv]
      simp [List.orderedInsert, List.filter, hv]
  | cons y ys ih =>
    by_cases hxy : r x y
    · rw [List.orderedInsert, if_pos hxy]
      by_cases hv : f x = v
      · rw [if_pos hv]
        simp [List.filter_cons, hv]
      · rw [if_neg hv]
        simp [List.filter_cons, hv]
    · rw [List.orderedInsert, if_neg hxy]
      have hnle : ¬ f x ≤ f y := fun hle => hxy ((hr x y).mpr hle)
      have hylt : f y < f x := not_le.mp hnle
      by_cases hv : f x = v
      · have hyv : ¬ (f y = v) := by omega
        rw [if_pos hv]
        rw [List.filter_cons, if_neg (by simpa using hyv), ih, if_pos hv,
          List.filter_cons, if_neg (by simpa using hyv)]
      · rw [if_neg hv]
        rw [List.filter_cons, ih, if_neg hv, List.filter_cons]

theorem insertionSort_filter_key {α : Type} (f : α → Int) (r : α → α → Prop)
    [DecidableRel r] (hr : ∀ a b, r a b ↔ f a ≤ f b) (v : Int) :
    ∀ l : List α,
      (List.insertionSort r l).filter (fun a => decide (f a = v)) =
        l.filter (fun a => decide (f a = v)) := by
  intro l
  induction l with
  | nil => rfl
  | cons x xs ih =>
    rw [List.insertionSort, orderedInsert_filter_key f r hr v, ih]
    by_cases hv : f x = v
    · rw [if_pos hv, List.filter_cons, if_pos (by simpa using hv)]
    · rw [if_neg hv, List.filter_cons, if_neg (by simpa using hv)]

/-- C4 (amended): the effective display-order value of a repository key is
the minimum sort order over the software labels of the first config entry,
in config order, whose namespace prefix-matches the key and whose software
list is nonempty (999 when no entry matches); AllowedRepos is the stable
ascending sort of its keys by this value: a permutation, ordered by the
value, with equal-valued keys kept in their original order; in a completed
run the AllowedRepos keys are sorted this way. -/
theorem C4_display_order_amended :
    (∀ (soGet : String → Int) (key : String) (cfg : List RepoConf),
      repoOrderScan soGet key cfg = firstMatchOrder soGet cfg key) ∧
    (∀ (cfg : Config) (keys : List String),
      List.Perm (List.insertionSort (repoKeyLe cfg) keys) keys ∧
      List.Sorted (repoKeyLe cfg) (List.insertionSort (repoKeyLe cfg) keys) ∧
      (∀ v : Int,
        (List.insertionSort (repoKeyLe cfg) keys).filter
          (fun k => decide (repoOrderScan (software_sortorder cfg.software) k
            cfg.repositories = v)) =
        keys.filter
          (fun k => decide (repoOrderScan (software_sortorder cfg.software) k
            cfg.repositories = v)))) ∧
    (∀ (cfg : Config) (fetchR : String → List RepoRec)
      (fetchT : String → String → List Tag) (pa pb : String) (out : MainOut),
      mainE cfg fetchR fetchT pa pb = .ok out →
      List.Sorted (repoKeyLe cfg) (out.allowed_sorted.map Prod.fst)) := by
  refine ⟨repoOrderScan_eq_firstMatch, ?_, ?_⟩
  · intro cfg keys
    refine ⟨List.perm_insertionSort _ _, List.sorted_insertionSort _ _, ?_⟩
    intro v
    exact insertionSort_filter_key
      (fun k => repoOrderScan (software_sortorder cfg.software) k cfg.repositories)
      (repoKeyLe cfg) (fun a b => Iff.rfl) v keys
  · intro cfg fetchR fetchT pa pb out h
    obtain ⟨st, hst, hallow, hall, hbysw, hunk, hev⟩ := mainE_ok h
    rw [hallow, List.map_map]
    have hid : (Prod.fst ∘ fun k => (k, (assocFind st.output k).getD [])) = id :=
      funext fun k => rfl
    rw [hid, List.map_id]
    exact List.sorted_insertionSort _ _

def c4metaA : SoftwareMeta := {name := "a", sort_order := some 5}

def c4metaB : SoftwareMeta := {name := "b", sort_order := some 1}

def c4metaC : SoftwareMeta := {name := "c", sort_order := some 3}

def c4confA : RepoConf := {ns := "acme", software := ["a"]}

def c4confB : RepoConf := {ns := "acme", software := ["b"]}

def c4confZ : RepoConf := {ns := "zed", software := ["c"]}

def c4cfg : Config := {repositories := [c4confA, c4confB, c4confZ], software := [c4metaA, c4metaB, c4metaC]}

/-- C4 counterexample: two config entries declare the same namespace; the
claim's minimum over all labels attached to the matching namespace gives 1,
but the code stops at the first matching entry and yields 5, and the final
document order differs from the order the claimed values would give. -/
theorem C4_display_order_counterexample :
    repoOrderScan (software_sortorder c4cfg.software) "acme/app" c4cfg.repositories = 5 ∧
    claimMinOrder (software_sortorder c4cfg.software) c4cfg.repositories "acme/app" = 1 ∧
    (5 : Int) ≠ 1 ∧
    List.insertionSort (repoKeyLe c4cfg) ["acme/app", "zed/app"] =
      ["zed/app", "acme/app"] ∧
    claimMinOrder (software_sortorder c4cfg.software) c4cfg.repositories "zed/app" = 3 ∧
    ¬ (claimMinOrder (software_sortorder c4cfg.software) c4cfg.repositories "zed/app" ≤
       claimMinOrder (software_sortorder c4cfg.software) c4cfg.repositories "acme/app") := by
  decide

def c4fR : String → List RepoRec := fun ns =>
  if ns = "acme" then [⟨"app"⟩] else if ns = "zed" then [⟨"box"⟩] else []

def c4fT : String → String → List Tag := fun _ _ => [⟨"v1", 0⟩]

theorem C4_display_order_amended_witness :
    repoOrderScan (software_sortorder c4cfg.software) "acme/app" c4cfg.repositories =
      firstMatchOrder (software_sortorder c4cfg.software) c4cfg.repositories "acme/app" ∧
    ∃ out, mainE c4cfg c4fR c4fT "allowed.yaml" "all.yaml" = .ok out ∧
      List.Sorted (repoKeyLe c4cfg) (out.allowed_sorted.map Prod.fst) := by
  refine ⟨C4_display_order_amended.1 (software_sortorder c4cfg.software) "acme/app"
    c4cfg.repositories, ?_⟩
  cases hm : mainE c4cfg c4fR c4fT "allowed.yaml" "all.yaml" with
  | error e =>
    have hok : (exOk (mainE c4cfg c4fR c4fT "allowed.yaml" "all.yaml")).isSome = true := by
      decide
    rw [hm] at hok
    exact nomatch hok
  | ok out =>
    exact ⟨out, rfl,
      C4_display_order_amended.2.2 c4cfg c4fR c4fT "allowed.yaml" "all.yaml" out hm⟩

/-! ### C3: there is no rule-parse-time validation -/

def c3rule : RuleDict :=
  {tag_regex := some (.valid (Regex.chr 'v')), keep_latest_n := some (-1),
   keep_most_recent := true}

def c3conf : RepoConf := {ns := "acme", filters := [c3rule]}

def c3cfg : Config := {repositories := [c3conf]}

def c3fR : String → List RepoRec := fun ns => if ns = "acme" then [⟨"app"⟩] else []

def c3fT : String → String → List Tag := fun ns r =>
  if ns = "acme" && r = "app" then [⟨"v1", 0⟩, ⟨"v2", 1⟩] else []

def c3badrule : RuleDict := {tag_regex := some .malformed}

def c3badconf : RepoConf := {ns := "acme", filters := [c3badrule]}

def c3badcfg : Config := {repositories := [c3badconf]}

/-- C3 counterexample: a config whose rule both mixes keep_most_recent with
a tag-regex clause and carries the negative keep_latest_n -1 does not fail
at all: the run completes after fetching from the network, and the rule is
applied with Python slice semantics (the truncation from the end leaves one
tag). -/
theorem C3_configerror_counterexample :
    ∃ out, mainE c3cfg c3fR c3fT "allowed.yaml" "all.yaml" = .ok out ∧
      ("acme/app", ["v2"]) ∈ out.allowed_sorted ∧
      Event.fetchRepos "acme" ∈ out.events ∧
      Event.fetchTagsEv "acme" "app" ∈ out.events := by
  cases hm : mainE c3cfg c3fR c3fT "allowed.yaml" "all.yaml" with
  | error e =>
    have hok : (exOk (mainE c3cfg c3fR c3fT "allowed.yaml" "all.yaml")).isSome = true := by
      decide
    rw [hm] at hok
    exact nomatch hok
  | ok out =>
    have houtv : exOk (mainE c3cfg c3fR c3fT "allowed.yaml" "all.yaml") = some out := by
      rw [hm]
      rfl
    have h1 : ("acme/app", ["v2"]) ∈
        ((exOk (mainE c3cfg c3fR c3fT "allowed.yaml" "all.yaml")).getD
          ⟨[], [], [], [], []⟩).allowed_sorted := by decide
    have h2 : Event.fetchRepos "acme" ∈
        ((exOk (mainE c3cfg c3fR c3fT "allowed.yaml" "all.yaml")).getD
          ⟨[], [], [], [], []⟩).events := by decide
    have h3 : Event.fetchTagsEv "acme" "app" ∈
        ((exOk (mainE c3cfg c3fR c3fT "allowed.yaml" "all.yaml")).getD
          ⟨[], [], [], [], []⟩).events := by decide
    rw [houtv] at h1 h2 h3
    exact ⟨out, rfl, h1, h2, h3⟩

/-- C3 (amended): the program performs no rule-parse-time validation and has
no ConfigError: a malformed regex pattern raises only when the tag filter is
applied; any integer keep_latest_n, negative included, is accepted without
error; and in a run whose config carries a malformed pattern the abort
happens after the repository list and the tag list were already fetched. -/
theorem C3_no_parse_time_validation :
    (∀ (tags : List Tag) (rest : List RuleDict) (rule : RuleDict),
      rule.tag_regex = some .malformed →
      filter_tags tags (rule :: rest) = .error .regexError) ∧
    (∀ (tags : List Tag) (n : Int) (bl : Option (List String)),
      ∃ res, filter_tags tags
        [{tag_regex := some .empty, blacklist := bl, keep_latest_n := some n}] =
        .ok res) ∧
    (∃ st e, mainE c3badcfg c3fR c3fT "allowed.yaml" "all.yaml" = .error (st, e) ∧
      Event.fetchRepos "acme" ∈ st.events ∧
      Event.fetchTagsEv "acme" "app" ∈ st.events) := by
  refine ⟨?_, ?_, ?_⟩
  · intro tags rest rule h
    rw [filter_tags_cons, tagStep_some_err h rfl]
    rfl
  · intro tags n bl
    refine ⟨tagRegexApply tags
      {tag_regex := some .empty, blacklist := bl, keep_latest_n := some n} none, ?_⟩
    rw [filter_tags_cons, tagStep_some_empty rfl]
    rfl
  · refine ⟨_, _, rfl, ?_, ?_⟩ <;> decide

theorem C3_no_parse_time_validation_witness :
    filter_tags [⟨"x", 0⟩] [({tag_regex := some .malformed} : RuleDict)] =
      .error .regexError :=
  C3_no_parse_time_validation.1 [⟨"x", 0⟩] [] {tag_regex := some .malformed} rfl

end DockerhubFilter
